import Mathlib

/-!
A shallow embedding of the request/response pipeline of the sevalla-go
client library (package `sevalla`): client construction and options,
request building with URL resolution, the `Do` response pipeline,
`Link`-header pagination parsing, `CheckResponse` error decoding, and the
status-code classification predicates from `errors.go`.

Strings are modelled as Lean `String`s, processed internally as
`List Char` (the Go code works on UTF-8 strings; every behaviour relevant
here is per-character, and all separators involved are single ASCII
characters). Machine integers are modelled as `Int`; 64-bit overflow is
only observable in `strconv.Atoi`, where the int64 range check is written
out. A Go function that can panic at runtime (list indexing out of range)
is modelled with `Option`, `none` marking the panic. Functions taken from
the Go standard library (`net/url`, `encoding/json`, `strings`, `strconv`)
are embedded on the subset of behaviour the library exercises, with the
restrictions noted in their doc comments.
-/

namespace Sevalla

/-- Go `strings.Split(s, sep)` for a single-character separator, on
character lists: splits around every occurrence of `sep`; the result is
never empty and an input without `sep` yields `[input]`. -/
def splitOnC (sep : Char) : List Char → List (List Char)
  | [] => [[]]
  | c :: rest =>
    let r := splitOnC sep rest
    if c = sep then [] :: r
    else
      match r with
      | [] => [[c]]
      | x :: xs => (c :: x) :: xs

/-- Go `strings.Split` for the single-character separators the library
uses (`,`, `;`, `=`). -/
def goSplit (s : String) (sep : Char) : List String :=
  (splitOnC sep s.toList).map String.mk

/-- Drop characters satisfying `p` from both ends of a list. -/
def trimChars (p : Char → Bool) (l : List Char) : List Char :=
  ((l.dropWhile p).reverse.dropWhile p).reverse

/-- Go `strings.Trim(s, cutset)` for the ASCII cutsets the library uses
(`"<>"` and `"\""`). -/
def goTrim (s : String) (cutset : String) : String :=
  String.mk (trimChars (fun c => cutset.toList.contains c) s.toList)

/-- Go `strings.TrimSpace`; the inputs modelled here contain only ASCII
whitespace. -/
def trimSpace (s : String) : String :=
  String.mk (trimChars
    (fun c => c == ' ' || c == '\t' || c == '\n' || c == '\x0b' || c == '\x0c' || c == '\r')
    s.toList)

/-- Decimal value of a digit list (used only under an all-digits guard). -/
def digitsVal (l : List Char) : Nat :=
  l.foldl (fun a c => a * 10 + (c.toNat - 48)) 0

/-- Go `strconv.Atoi`: optional sign, one or more decimal digits, value
within the 64-bit signed range; anything else is an error (`none`). -/
def atoi (s : String) : Option Int :=
  let p : Int × List Char :=
    match s.toList with
    | '+' :: rest => (1, rest)
    | '-' :: rest => (-1, rest)
    | l => (1, l)
  let sign := p.1
  let ds := p.2
  if ds.isEmpty then none
  else if ds.all (fun c => c.isDigit) then
    let v : Int := sign * (digitsVal ds : Int)
    if -(2 ^ 63) ≤ v ∧ v < 2 ^ 63 then some v else none
  else none

/-- Go `strings.Cut(s, sep)` for a single-character separator:
(before, after, found). -/
def goCut (s : String) (sep : Char) : String × String × Bool :=
  let l := s.toList
  let before := l.takeWhile (fun c => c != sep)
  let rest := l.drop before.length
  match rest with
  | [] => (String.mk before, "", false)
  | _ :: after => (String.mk before, String.mk after, true)

/-- Whether a character list begins with the character `c`. -/
def startsWithC (l : List Char) (c : Char) : Bool :=
  match l with
  | [] => false
  | x :: _ => x == c

/-- Whether a character list begins with the two characters `a`, `b`. -/
def hasPfx2 (l : List Char) (a b : Char) : Bool :=
  match l with
  | x :: y :: _ => x == a && y == b
  | _ => false

/-- Whether a character list begins with the three characters
`a`, `b`, `c`. -/
def hasPfx3 (l : List Char) (a b c : Char) : Bool :=
  match l with
  | x :: y :: z :: _ => x == a && y == b && z == c
  | _ => false

/-- ASCII lowercase of one character (Go lowercases schemes and matches
JSON field names case-insensitively; all names involved are ASCII). -/
def toLowerChar (c : Char) : Char :=
  if 65 ≤ c.toNat && c.toNat ≤ 90 then Char.ofNat (c.toNat + 32) else c

/-- ASCII lowercase of a character list. -/
def toLowerL (l : List Char) : List Char :=
  l.map toLowerChar

/-- ASCII letter. -/
def isAlphaChar (c : Char) : Bool :=
  (65 ≤ c.toNat && c.toNat ≤ 90) || (97 ≤ c.toNat && c.toNat ≤ 122)

/-- ASCII digit. -/
def isDigitChar (c : Char) : Bool :=
  48 ≤ c.toNat && c.toNat ≤ 57

/-- Characters Go `net/url.getScheme` accepts inside a scheme. -/
def isSchemeChar (c : Char) : Bool :=
  isAlphaChar c || isDigitChar c || c == '+' || c == '-' || c == '.'

/-- Go `net/url` control-byte rejection: `b < ' ' || b == 0x7f`. -/
def isCtlChar (c : Char) : Bool :=
  c.toNat < 32 || c.toNat == 127

/-- ASCII hexadecimal digit. -/
def isHexChar (c : Char) : Bool :=
  isDigitChar c || (97 ≤ c.toNat && c.toNat ≤ 102) || (65 ≤ c.toNat && c.toNat ≤ 70)

/-- Every `%` is followed by two hexadecimal digits (Go `net/url`
unescape validity for a path). -/
def validEscapes : List Char → Bool
  | [] => true
  | c :: rest =>
    if c = '%' then
      match rest with
      | a :: b :: rest2 => isHexChar a && isHexChar b && validEscapes rest2
      | _ => false
    else validEscapes rest

/-- Modelled from Go `net/url.URL`, restricted to the fields the library
reads (userinfo and `ForceQuery` are not modelled). `opq` is Go's
`URL.Opaque`; `hasHost` records that a `//` authority was present (the
negation of Go's `URL.OmitHost` for URLs with a scheme). -/
structure GoURL where
  scheme : String
  opq : String
  host : String
  hasHost : Bool
  path : String
  rawQuery : String
  fragment : String
deriving DecidableEq, Repr

/-- Go `net/url.getScheme`: `some (scheme, rest)` where an empty scheme
means the input had no scheme prefix; `none` is the
"missing protocol scheme" error. -/
def getScheme (l : List Char) : Option (List Char × List Char) :=
  let pre := l.takeWhile isSchemeChar
  let rest := l.drop pre.length
  match rest with
  | ':' :: after =>
    match pre with
    | [] => none
    | c :: _ => if isAlphaChar c then some (pre, after) else some ([], l)
  | _ => some ([], l)

/-- Modelled from Go `net/url.Parse` on the subset of URL syntax the
library exercises: control characters are rejected; the fragment (`#`)
and query (`?`) are split off; the scheme is recognised per `getScheme`
and lowercased; `scheme:` followed by a non-`/` remainder is an opaque
URL; a `//` prefix introduces a host running to the next `/`; percent
escapes in a path must be well formed; and a schemeless URL whose first
path segment contains `:` is rejected. Host syntax validation, userinfo
and `ForceQuery` are not modelled. -/
def urlParse (s : String) : Option GoURL :=
  if s.toList.any isCtlChar then none
  else
    let cf := goCut s '#'
    let frag := cf.2.1
    match getScheme cf.1.toList with
    | none => none
    | some (schemeL, rest0) =>
      let scheme := String.mk (toLowerL schemeL)
      let cq := goCut (String.mk rest0) '?'
      let rawQuery := cq.2.1
      let rest1 := cq.1.toList
      if !(startsWithC rest1 '/') then
        if scheme ≠ "" then
          some ⟨scheme, String.mk rest1, "", false, "", rawQuery, frag⟩
        else if ((splitOnC '/' rest1).headD []).contains ':' then none
        else if validEscapes rest1 then
          some ⟨"", "", "", false, String.mk rest1, rawQuery, frag⟩
        else none
      else
        if hasPfx2 rest1 '/' '/' && (scheme ≠ "" || !(hasPfx3 rest1 '/' '/' '/')) then
          let auth := (rest1.drop 2).takeWhile (fun c => c != '/')
          let after := (rest1.drop 2).drop auth.length
          if validEscapes after then
            some ⟨scheme, "", String.mk auth, true, String.mk after, rawQuery, frag⟩
          else none
        else if validEscapes rest1 then
          some ⟨scheme, "", "", false, String.mk rest1, rawQuery, frag⟩
        else none

/-- The prefix of `s` up to and including its last `/`
(`""` if `s` contains no `/`); Go `base[:strings.LastIndex(base, "/")+1]`. -/
def upToLastSlash (s : String) : String :=
  String.mk ((s.toList.reverse.dropWhile (fun c => c != '/')).reverse)

/-- One segment step of RFC 3986 `remove_dot_segments`: `.` is dropped,
`..` pops the previous output segment, anything else is appended. -/
def rdsStep (out : List (List Char)) (seg : List Char) : List (List Char) :=
  if seg = ['.'] then out
  else if seg = ['.', '.'] then out.dropLast
  else out ++ [seg]

/-- RFC 3986 `remove_dot_segments` as performed by Go
`net/url.resolvePath`, whose output for a nonempty input always begins
with `/`. -/
def removeDotSegments (full : List Char) : List Char :=
  let segs := splitOnC '/' (if startsWithC full '/' then full.drop 1 else full)
  let out := segs.foldl rdsStep []
  let trailing : Bool :=
    match segs.getLast? with
    | some s => s = ['.'] || s = ['.', '.']
    | none => false
  '/' :: List.intercalate ['/'] (out ++ (if trailing then [[]] else []))

/-- Go `net/url.resolvePath(base, ref)`: merge the reference path into the
base path (a reference not starting with `/` replaces everything after the
base's last `/`) and remove dot segments. -/
def resolvePath (base ref : String) : String :=
  let full :=
    if ref = "" then base
    else if !(startsWithC ref.toList '/') then upToLastSlash base ++ ref
    else ref
  if full = "" then ""
  else String.mk (removeDotSegments full.toList)

/-- Go `(*net/url.URL).ResolveReference` (without userinfo and
`ForceQuery`, which the library never sets). -/
def resolveReference (u ref : GoURL) : GoURL :=
  let scheme := if ref.scheme = "" then u.scheme else ref.scheme
  if ref.scheme ≠ "" ∨ ref.host ≠ "" then
    { ref with scheme := scheme, path := resolvePath ref.path "" }
  else if ref.opq ≠ "" then
    { ref with scheme := scheme }
  else
    let qf :=
      if ref.path = "" ∧ ref.rawQuery = "" then
        (u.rawQuery, if ref.fragment = "" then u.fragment else ref.fragment)
      else (ref.rawQuery, ref.fragment)
    { scheme := scheme, opq := "", host := u.host, hasHost := u.hasHost,
      path := resolvePath u.path ref.path, rawQuery := qf.1, fragment := qf.2 }

/-- Go `(*net/url.URL).String` on the modelled fields. -/
def urlString (u : GoURL) : String :=
  (if u.scheme ≠ "" then u.scheme ++ ":" else "") ++
  (if u.opq ≠ "" then u.opq
   else
     (if u.scheme ≠ "" || u.host ≠ "" then
        (if !u.hasHost && u.host = "" && u.scheme ≠ "" then ""
         else (if u.host ≠ "" || u.path ≠ "" then "//" else "") ++ u.host)
      else "") ++
     (if u.path ≠ "" && !(startsWithC u.path.toList '/') && u.host ≠ "" then "/" else "") ++
     u.path) ++
  (if u.rawQuery ≠ "" then "?" ++ u.rawQuery else "") ++
  (if u.fragment ≠ "" then "#" ++ u.fragment else "")

/-- Value of an ASCII hexadecimal digit. -/
def hexVal (c : Char) : Option Nat :=
  if isDigitChar c then some (c.toNat - 48)
  else if 97 ≤ c.toNat && c.toNat ≤ 102 then some (c.toNat - 87)
  else if 65 ≤ c.toNat && c.toNat ≤ 70 then some (c.toNat - 55)
  else none

/-- Go `net/url.QueryUnescape` (query mode: `+` becomes a space, a `%`
must be followed by two hexadecimal digits). -/
def queryUnescape : List Char → Option (List Char)
  | [] => some []
  | '%' :: a :: b :: rest => do
      let ha ← hexVal a
      let hb ← hexVal b
      let r ← queryUnescape rest
      pure (Char.ofNat (16 * ha + hb) :: r)
  | '%' :: _ => none
  | '+' :: rest => (queryUnescape rest).map (fun r => ' ' :: r)
  | c :: rest => (queryUnescape rest).map (fun r => c :: r)

/-- Go `net/url.ParseQuery` (Go 1.17+ semantics: pairs are split on `&`,
a pair containing `;` or with an empty key is skipped, a pair whose key or
value fails to unescape is skipped). The result keeps first-to-last
order, so `find?` below matches Go `Values.Get`. -/
def parseQuery (q : String) : List (String × String) :=
  (splitOnC '&' q.toList).foldl
    (fun m kv =>
      if kv.contains ';' then m
      else if kv = [] then m
      else
        let k := kv.takeWhile (fun c => c != '=')
        let v := (kv.drop k.length).drop 1
        match queryUnescape k, queryUnescape v with
        | some k2, some v2 => m ++ [(String.mk k2, String.mk v2)]
        | _, _ => m)
    []

/-- Go `u.Query().Get(key)`: the first value recorded for `key`, `""` if
the key is absent. -/
def queryGet (rawQuery key : String) : String :=
  match (parseQuery rawQuery).find? (fun p => p.1 == key) with
  | some p => p.2
  | none => ""

/-- Go `http.Header.Get` with the key given in canonical MIME form (the
form under which Go's transport stores response header keys). -/
def headerGet (hs : List (String × String)) (key : String) : String :=
  match hs.find? (fun p => p.1 == key) with
  | some p => p.2
  | none => ""

/-- The pagination fields of the `Response` envelope (sevalla.go). -/
structure PageValues where
  nextPage : Int
  prevPage : Int
  firstPage : Int
  lastPage : Int
deriving DecidableEq, Repr

/-- The zero value of `PageValues` (a fresh `Response`). -/
def PageValues.zero : PageValues := ⟨0, 0, 0, 0⟩

/-- One iteration of the loop in `Response.populatePageValues`
(sevalla.go). `none` marks the index-out-of-range panic of
`strings.Split(segments[1], "=")[1]` when the second segment contains no
`=`. -/
def processLinkEntry (pv : PageValues) (link : String) : Option PageValues :=
  match goSplit (trimSpace link) ';' with
  | [seg0, seg1] =>
    let urlStr := goTrim seg0 "<>"
    match urlParse urlStr with
    | none => some pv
    | some u =>
      let page := queryGet u.rawQuery "page"
      if page = "" then some pv
      else
        match atoi page with
        | none => some pv
        | some pageNum =>
          match (goSplit seg1 '=').get? 1 with
          | none => none
          | some relRaw =>
            let rel := goTrim relRaw "\""
            if rel = "next" then some { pv with nextPage := pageNum }
            else if rel = "prev" then some { pv with prevPage := pageNum }
            else if rel = "first" then some { pv with firstPage := pageNum }
            else if rel = "last" then some { pv with lastPage := pageNum }
            else some pv
  | _ => some pv

/-- `Response.populatePageValues` (sevalla.go) as a function of the
`Link` header value; `none` marks a runtime panic in the loop. -/
def populatePageValues (linkHeader : String) : Option PageValues :=
  if linkHeader ≠ "" then
    (goSplit linkHeader ',').foldlM processLinkEntry PageValues.zero
  else some PageValues.zero

/-- The opening brace character. -/
def lbrace : Char := Char.ofNat 123

/-- The closing brace character. -/
def rbrace : Char := Char.ofNat 125

/-- A JSON value, on the subset the library's payloads use (numbers are
integers; fractional and exponent forms do not occur in the modelled
bodies). -/
inductive Json where
  | null
  | bool (b : Bool)
  | num (n : Int)
  | str (s : String)
  | arr (elems : List Json)
  | obj (fields : List (String × Json))
deriving Repr

/-- Lowercase hexadecimal digit. -/
def hexDigit (n : Nat) : Char :=
  if n < 10 then Char.ofNat (48 + n) else Char.ofNat (87 + n)

/-- Two lowercase hexadecimal digits of a byte. -/
def hex2 (n : Nat) : List Char :=
  [hexDigit (n / 16 % 16), hexDigit (n % 16)]

/-- One character of a Go `encoding/json` string literal. With
`escapeHTML` false (the library calls `SetEscapeHTML(false)`) only `"`,
`\`, control characters and U+2028/U+2029 are escaped; with it true (the
encoder default) `<`, `>` and `&` are additionally escaped as `\u00xx`.
Go writes `\n`, `\r`, `\t` by name and other control characters as
`\u00xx`. -/
def encodeChar (escapeHTML : Bool) (c : Char) : List Char :=
  if c = '"' then ['\\', '"']
  else if c = '\\' then ['\\', '\\']
  else if escapeHTML && (c == '<' || c == '>' || c == '&') then
    '\\' :: 'u' :: '0' :: '0' :: hex2 c.toNat
  else if c = '\n' then ['\\', 'n']
  else if c = '\r' then ['\\', 'r']
  else if c = '\t' then ['\\', 't']
  else if c.toNat < 32 then '\\' :: 'u' :: '0' :: '0' :: hex2 c.toNat
  else if c.toNat = 8232 || c.toNat = 8233 then
    '\\' :: 'u' :: '2' :: '0' :: '2' :: [hexDigit (c.toNat % 16)]
  else [c]

/-- A Go `encoding/json` string literal (quotes included). -/
def encodeStringL (escapeHTML : Bool) (s : String) : List Char :=
  '"' :: (s.toList.map (encodeChar escapeHTML)).flatten ++ ['"']

mutual

/-- Go `encoding/json` encoding of a `Json` value (compact form, as the
encoder emits: no added whitespace, object members in order). -/
def jsonEncodeL (escapeHTML : Bool) : Json → List Char
  | Json.null => ['n', 'u', 'l', 'l']
  | Json.bool true => ['t', 'r', 'u', 'e']
  | Json.bool false => ['f', 'a', 'l', 's', 'e']
  | Json.num n => (toString n).toList
  | Json.str s => encodeStringL escapeHTML s
  | Json.arr es => '[' :: jsonEncodeList escapeHTML es ++ [']']
  | Json.obj fs => lbrace :: jsonEncodeFields escapeHTML fs ++ [rbrace]

/-- Comma-separated encodings of array elements. -/
def jsonEncodeList (escapeHTML : Bool) : List Json → List Char
  | [] => []
  | [e] => jsonEncodeL escapeHTML e
  | e :: es => jsonEncodeL escapeHTML e ++ ',' :: jsonEncodeList escapeHTML es

/-- Comma-separated `"key":value` encodings of object members. -/
def jsonEncodeFields (escapeHTML : Bool) : List (String × Json) → List Char
  | [] => []
  | [(k, v)] => encodeStringL escapeHTML k ++ ':' :: jsonEncodeL escapeHTML v
  | (k, v) :: ps =>
    encodeStringL escapeHTML k ++ ':' :: jsonEncodeL escapeHTML v
      ++ ',' :: jsonEncodeFields escapeHTML ps

end

/-- `json.Encoder.Encode` output: the value followed by a newline. -/
def goJsonEncode (escapeHTML : Bool) (v : Json) : String :=
  String.mk (jsonEncodeL escapeHTML v ++ ['\n'])

/-- JSON whitespace (`encoding/json`: space, tab, newline, carriage
return). -/
def skipWs (l : List Char) : List Char :=
  l.dropWhile (fun c => c == ' ' || c == '\t' || c == '\n' || c == '\r')

/-- Parse the body of a JSON string literal after the opening quote,
returning the decoded characters and the input after the closing quote.
Unescaped control characters and unknown escapes are errors, as in Go. -/
def parseStrChars : List Char → Option (List Char × List Char)
  | [] => none
  | c :: rest =>
    if c = '"' then some ([], rest)
    else if c = '\\' then
      match rest with
      | 'u' :: a :: b :: h3 :: h4 :: rest2 => do
          let ha ← hexVal a
          let hb ← hexVal b
          let hc ← hexVal h3
          let hd ← hexVal h4
          let r ← parseStrChars rest2
          pure (Char.ofNat (((ha * 16 + hb) * 16 + hc) * 16 + hd) :: r.1, r.2)
      | e :: rest2 =>
        if e = 'u' then none
        else do
          let ch ←
            (if e = '"' then some '"'
             else if e = '\\' then some '\\'
             else if e = '/' then some '/'
             else if e = 'n' then some '\n'
             else if e = 'r' then some '\r'
             else if e = 't' then some '\t'
             else if e = 'b' then some (Char.ofNat 8)
             else if e = 'f' then some (Char.ofNat 12)
             else none)
          let r ← parseStrChars rest2
          pure (ch :: r.1, r.2)
      | [] => none
    else if c.toNat < 32 then none
    else (parseStrChars rest).map (fun r => (c :: r.1, r.2))

/-- Parse an integer JSON number (`-?[0-9]+`; the modelled subset). -/
def parseNum (l : List Char) : Option (Int × List Char) :=
  let sl : Int × List Char := if startsWithC l '-' then (-1, l.drop 1) else (1, l)
  let ds := sl.2.takeWhile (fun c => c.isDigit)
  if ds = [] then none
  else some (sl.1 * (digitsVal ds : Int), sl.2.drop ds.length)

mutual

/-- Fueled recursive-descent parser for one JSON value, mirroring
`encoding/json` scanning on the modelled subset: leading whitespace is
skipped and the value is returned together with the unconsumed
remainder. -/
def parseVal : Nat → List Char → Option (Json × List Char)
  | 0, _ => none
  | Nat.succ fuel, input =>
    match skipWs input with
    | [] => none
    | c :: rest =>
      if c = '"' then (parseStrChars rest).map (fun r => (Json.str (String.mk r.1), r.2))
      else if c = lbrace then
        (parseObjFields fuel rest true).map (fun r => (Json.obj r.1, r.2))
      else if c = '[' then
        (parseArrElems fuel rest true).map (fun r => (Json.arr r.1, r.2))
      else if c = 't' then
        match rest with
        | 'r' :: 'u' :: 'e' :: r => some (Json.bool true, r)
        | _ => none
      else if c = 'f' then
        match rest with
        | 'a' :: 'l' :: 's' :: 'e' :: r => some (Json.bool false, r)
        | _ => none
      else if c = 'n' then
        match rest with
        | 'u' :: 'l' :: 'l' :: r => some (Json.null, r)
        | _ => none
      else if c = '-' || c.isDigit then
        (parseNum (c :: rest)).map (fun r => (Json.num r.1, r.2))
      else none

/-- Parse object members after the opening brace; `first` is true before
the first member (only then may the object close immediately). Returns
the members in input order and the remainder after the closing brace. -/
def parseObjFields : Nat → List Char → Bool → Option (List (String × Json) × List Char)
  | 0, _, _ => none
  | Nat.succ fuel, l, first =>
    match skipWs l with
    | [] => none
    | c :: rest =>
      if c = rbrace && first then some ([], rest)
      else if c = '"' then
        match parseStrChars rest with
        | none => none
        | some (k, rest2) =>
          match skipWs rest2 with
          | c2 :: rest3 =>
            if c2 = ':' then
              match parseVal fuel rest3 with
              | none => none
              | some (v, rest4) =>
                match skipWs rest4 with
                | d :: rest5 =>
                  if d = ',' then
                    (parseObjFields fuel rest5 false).map
                      (fun r => ((String.mk k, v) :: r.1, r.2))
                  else if d = rbrace then some ([(String.mk k, v)], rest5)
                  else none
                | [] => none
            else none
          | [] => none
      else none

/-- Parse array elements after `[`; `first` is true before the first
element. -/
def parseArrElems : Nat → List Char → Bool → Option (List Json × List Char)
  | 0, _, _ => none
  | Nat.succ fuel, l, first =>
    match skipWs l with
    | [] => none
    | c :: rest =>
      if c = ']' && first then some ([], rest)
      else
        match parseVal fuel (c :: rest) with
        | none => none
        | some (v, rest2) =>
          match skipWs rest2 with
          | d :: rest3 =>
            if d = ',' then (parseArrElems fuel rest3 false).map (fun r => (v :: r.1, r.2))
            else if d = ']' then some ([v], rest3)
            else none
          | [] => none

end

/-- Go `json.Unmarshal`-style whole-input parse: exactly one value
surrounded only by whitespace. -/
def jsonParse (s : String) : Option Json :=
  match parseVal (2 * s.length + 2) s.toList with
  | some (v, rest) => if skipWs rest = [] then some v else none
  | none => none

/-- Go `json.NewDecoder(...).Decode`-style parse of the first value; any
remainder after the value is left unread and is not an error. -/
def jsonDecodeOne (s : String) : Option Json :=
  (parseVal (2 * s.length + 2) s.toList).map (fun r => r.1)

/-- `ErrorDetail` (errors.go): one field-level error. -/
structure ErrDetail where
  field : String
  code : String
  message : String
deriving DecidableEq, Repr

/-- The zero `ErrorDetail`. -/
def ErrDetail.zero : ErrDetail := ⟨"", "", ""⟩

/-- The JSON-decoded fields of `ErrorResponse` (errors.go). -/
structure ErrData where
  message : String
  code : String
  requestID : String
  errors : List ErrDetail
deriving DecidableEq, Repr

/-- The zero `ErrData`. -/
def ErrData.zero : ErrData := ⟨"", "", "", []⟩

/-- Go `json.Unmarshal` of one JSON value into a `string` struct field:
a string assigns, `null` leaves the field untouched, anything else is a
type error. -/
def setStrField (cur : String) : Json → Option String
  | Json.str s => some s
  | Json.null => some cur
  | _ => none

/-- One member step of unmarshalling into `ErrorDetail` (tag names
`field`, `code`, `message`; Go matches field names case-insensitively and
ignores unknown keys). -/
def decodeDetailField (d : ErrDetail) (k : String) (v : Json) : Option ErrDetail :=
  let kl := String.mk (toLowerL k.toList)
  if kl = "field" then (setStrField d.field v).map (fun s => { d with field := s })
  else if kl = "code" then (setStrField d.code v).map (fun s => { d with code := s })
  else if kl = "message" then (setStrField d.message v).map (fun s => { d with message := s })
  else some d

/-- Go `json.Unmarshal` of one JSON value into an `ErrorDetail`. -/
def decodeDetail : Json → Option ErrDetail
  | Json.obj fields => fields.foldlM (fun d p => decodeDetailField d p.1 p.2) ErrDetail.zero
  | Json.null => some ErrDetail.zero
  | _ => none

/-- Go `json.Unmarshal` of one JSON value into `[]ErrorDetail` (`null`
leaves the slice untouched). -/
def decodeDetails (cur : List ErrDetail) : Json → Option (List ErrDetail)
  | Json.arr items => items.mapM decodeDetail
  | Json.null => some cur
  | _ => none

/-- One member step of unmarshalling into `ErrorResponse` (tag names
`message`, `code`, `request_id`, `errors`). -/
def decodeErrField (d : ErrData) (k : String) (v : Json) : Option ErrData :=
  let kl := String.mk (toLowerL k.toList)
  if kl = "message" then (setStrField d.message v).map (fun s => { d with message := s })
  else if kl = "code" then (setStrField d.code v).map (fun s => { d with code := s })
  else if kl = "request_id" then
    (setStrField d.requestID v).map (fun s => { d with requestID := s })
  else if kl = "errors" then (decodeDetails d.errors v).map (fun es => { d with errors := es })
  else some d

/-- Go `json.Unmarshal(data, errorResponse)` on the modelled subset: the
body must parse as a single JSON value; an object assigns the tagged
fields member by member (later duplicates overwrite, unknown keys are
ignored, `null` members leave a field untouched); a top-level `null`
assigns nothing; any other top-level value or a type-mismatched member is
an error. Go's partial population of fields before a type-mismatch error
is not modelled: `CheckResponse` then overwrites only `Message`, the one
field the pipeline relies on in that branch. -/
def unmarshalER (data : String) : Option ErrData :=
  match jsonParse data with
  | none => none
  | some (Json.obj fields) => fields.foldlM (fun d p => decodeErrField d p.1 p.2) ErrData.zero
  | some Json.null => some ErrData.zero
  | some _ => none

/-- `ErrorResponse` (errors.go), with the carried `Response` reduced to
its status code (the only part the library reads). -/
structure ErrorResponse where
  statusCode : Int
  message : String
  code : String
  requestID : String
  errors : List ErrDetail
deriving DecidableEq, Repr

/-- `CheckResponse` (sevalla.go): `nil` for status 200–299; otherwise an
`*ErrorResponse` carrying the response, populated from the JSON body when
it unmarshals, from the raw body text otherwise, and left zero for an
empty body. The `io.ReadAll` error branch (transport-level read failure)
is outside this embedding. -/
def CheckResponse (statusCode : Int) (body : String) : Option ErrorResponse :=
  if 200 ≤ statusCode ∧ statusCode ≤ 299 then none
  else
    let d :=
      if body.length > 0 then
        match unmarshalER body with
        | some d => d
        | none => { ErrData.zero with message := body }
      else ErrData.zero
    some ⟨statusCode, d.message, d.code, d.requestID, d.errors⟩

/-- A Go `error` value as the classification predicates see it: the
library's own `*ErrorResponse`, the library's other error types, or a
transport error. The type assertion `err.(*ErrorResponse)` succeeds
exactly on the first constructor — in particular not on
`*RateLimitError`, which is a distinct concrete type even though it
embeds an `*ErrorResponse`, and not on transport errors. -/
inductive GoError where
  | errorResponse (e : ErrorResponse)
  | rateLimitError (e : ErrorResponse) (retryAfter : Int)
  | validationError (field : String) (message : String)
  | transport (msg : String)
deriving DecidableEq, Repr

/-- `IsNotFound` (errors.go). -/
def IsNotFound : GoError → Bool
  | GoError.errorResponse e => e.statusCode == 404
  | _ => false

/-- `IsBadRequest` (errors.go). -/
def IsBadRequest : GoError → Bool
  | GoError.errorResponse e => e.statusCode == 400
  | _ => false

/-- `IsUnauthorized` (errors.go). -/
def IsUnauthorized : GoError → Bool
  | GoError.errorResponse e => e.statusCode == 401
  | _ => false

/-- `IsForbidden` (errors.go). -/
def IsForbidden : GoError → Bool
  | GoError.errorResponse e => e.statusCode == 403
  | _ => false

/-- `IsConflict` (errors.go). -/
def IsConflict : GoError → Bool
  | GoError.errorResponse e => e.statusCode == 409
  | _ => false

/-- `IsUnprocessableEntity` (errors.go). -/
def IsUnprocessableEntity : GoError → Bool
  | GoError.errorResponse e => e.statusCode == 422
  | _ => false

/-- `IsRateLimited` (errors.go). -/
def IsRateLimited : GoError → Bool
  | GoError.errorResponse e => e.statusCode == 429
  | _ => false

/-- `IsServerError` (errors.go). -/
def IsServerError : GoError → Bool
  | GoError.errorResponse e => 500 ≤ e.statusCode && e.statusCode < 600
  | _ => false

/-- `IsClientError` (errors.go). -/
def IsClientError : GoError → Bool
  | GoError.errorResponse e => 400 ≤ e.statusCode && e.statusCode < 500
  | _ => false

/-- `Rate` (sevalla.go); `reset` stands for the `time.Time` value. -/
structure Rate where
  limit : Int
  remaining : Int
  reset : Int
deriving DecidableEq, Repr

/-- The zero `Rate` of a fresh `Response`. -/
def Rate.zero : Rate := ⟨0, 0, 0⟩

/-- The wire-level HTTP response handed back by the transport. -/
structure HttpResp where
  statusCode : Int
  headers : List (String × String)
  body : String
deriving DecidableEq, Repr

/-- The `Response` envelope (sevalla.go): the wrapped response's status
code plus the derived pagination and rate fields. -/
structure Response where
  statusCode : Int
  pages : PageValues
  rate : Rate
deriving DecidableEq, Repr

/-- The destination argument `v` of `Client.Do`: nil, an `io.Writer`
byte sink, or a JSON-decoded destination holding its current value. -/
inductive Dest where
  | null
  | writer (buf : String)
  | jsonDest (v : Option Json)
deriving Repr

/-- The error result of `Client.Do` once a response was received: the
typed `*ErrorResponse`, or a JSON decode error on a success body. -/
inductive DoErr where
  | api (e : ErrorResponse)
  | decodeFailure
deriving Repr

/-- The outcome of `Client.Do`: the envelope, the error return, and the
final state of the destination. -/
structure DoResult where
  response : Response
  error : Option DoErr
  dest : Dest
deriving Repr

/-- `Client.Do` (sevalla.go), entered after a successful transport send
(a transport failure returns `(nil, err)` before any of this runs).
`none` marks a runtime panic inside `populatePageValues`. The success
body is decoded with `json.Decoder.Decode`, whose `io.EOF` on an empty or
all-whitespace body is ignored. -/
def Do (resp : HttpResp) (v : Dest) : Option DoResult :=
  match populatePageValues (headerGet resp.headers "Link") with
  | none => none
  | some pv =>
    let response : Response := ⟨resp.statusCode, pv, Rate.zero⟩
    match CheckResponse resp.statusCode resp.body with
    | some e => some ⟨response, some (DoErr.api e), v⟩
    | none =>
      if resp.statusCode ≠ 204 then
        match v with
        | Dest.null => some ⟨response, none, v⟩
        | Dest.writer buf => some ⟨response, none, Dest.writer (buf ++ resp.body)⟩
        | Dest.jsonDest _ =>
          if trimSpace resp.body = "" then some ⟨response, none, v⟩
          else
            match jsonDecodeOne resp.body with
            | some j => some ⟨response, none, Dest.jsonDest (some j)⟩
            | none => some ⟨response, some DoErr.decodeFailure, v⟩
      else some ⟨response, none, v⟩

/-- `BaseURL` (sevalla.go): the default base URL. -/
def BaseURL : String := "https://api.sevalla.com/v2"

/-- `UserAgent` (sevalla.go): the default user agent. -/
def UserAgent : String := "sevalla-go/0.1.0"

/-- The configuration fields of `Client` (sevalla.go); the transport
(`client *http.Client`) is external and carries no modelled state, and
the per-resource service handles only share a reference to this state. -/
structure Client where
  baseURL : GoURL
  apiKey : String
  userAgent : String
deriving DecidableEq, Repr

/-- `ClientOption` (sevalla.go). -/
abbrev ClientOption : Type := Client → Client

/-- `WithAPIKey` (sevalla.go). -/
def WithAPIKey (key : String) : ClientOption :=
  fun c => { c with apiKey := key }

/-- `WithBaseURL` (sevalla.go): parse the argument; on success overwrite
the base URL, on a parse error leave the client unchanged. -/
def WithBaseURL (baseURL : String) : ClientOption :=
  fun c =>
    match urlParse baseURL with
    | some u => { c with baseURL := u }
    | none => c

/-- `WithUserAgent` (sevalla.go). -/
def WithUserAgent (ua : String) : ClientOption :=
  fun c => { c with userAgent := ua }

/-- `NewClient` (sevalla.go): defaults first, then the options in order.
The ignored parse error of the default base URL cannot fire (the constant
parses); the zero `GoURL` stands for Go's `baseURL == nil` in that dead
branch. Construction never fails. -/
def NewClient (opts : List ClientOption) : Client :=
  let base :=
    match urlParse BaseURL with
    | some u => u
    | none => ⟨"", "", "", false, "", "", ""⟩
  opts.foldl (fun c opt => opt c) ⟨base, "", UserAgent⟩

/-- The outgoing request fields `NewRequest` sets. -/
structure GoRequest where
  method : String
  url : GoURL
  headers : List (String × String)
  body : Option String
deriving Repr

/-- `Client.NewRequest` (sevalla.go): resolve `urlStr` against the base
URL (`c.baseURL.Parse`, i.e. parse then `ResolveReference`), JSON-encode
the body with HTML escaping disabled (`json.Encoder` appends a newline),
and set `Content-Type: application/json` when a body is present,
`Authorization: Bearer <key>` when a key is configured, and `User-Agent`
always. `none` is the error return for a URL parse failure. The
`http.NewRequestWithContext` re-parse of the already-resolved URL string
and its method validation are not modelled. -/
def NewRequest (c : Client) (method urlStr : String) (body : Option Json) : Option GoRequest :=
  match urlParse urlStr with
  | none => none
  | some ref =>
    some
      { method := method
        url := resolveReference c.baseURL ref
        headers :=
          (if body.isSome then [("Content-Type", "application/json")] else []) ++
          (if c.apiKey ≠ "" then [("Authorization", "Bearer " ++ c.apiKey)] else []) ++
          [("User-Agent", c.userAgent)]
        body := body.map (fun b => goJsonEncode false b) }

/-- A flat JSON object of string fields: the shape of the library's own
`map[string]string` payloads and single-string request structs. -/
def flatObj (fields : List (String × String)) : Json :=
  Json.obj (fields.map (fun p => (p.1, Json.str p.2)))

/-- The string carried by an optional JSON member, with a default for an
absent or non-string member. -/
def strFieldD (o : Option Json) (dflt : String) : String :=
  match o with
  | some (Json.str s) => s
  | _ => dflt

/-- The string carried by an optional JSON member; `""` when the member
is absent (the zero value of the Go struct field). -/
def strField (o : Option Json) : String :=
  strFieldD o ""

/-- Letters, digits, `-` and `_`: characters that URL parsing and
resolution pass through untouched, and the alphabet of the library's
first path segments (`applications`, `databases`, `static-sites`, ...). -/
def plainChar (c : Char) : Bool :=
  isAlphaChar c || isDigitChar c || c == '-' || c == '_'

/-- Characters a Go JSON string literal carries verbatim when HTML
escaping is off: everything except `"`, `\`, control characters and
U+2028/U+2029. -/
def plainJsonChar (c : Char) : Bool :=
  !(c == '"') && !(c == '\\') && decide (32 ≤ c.toNat)
    && !(c.toNat == 8232) && !(c.toNat == 8233)

/-- `CheckResponse` returns `nil` on every 2xx status. -/
theorem CheckResponse_2xx (statusCode : Int) (body : String)
    (h : 200 ≤ statusCode ∧ statusCode ≤ 299) :
    CheckResponse statusCode body = none := by
  unfold CheckResponse
  rw [if_pos h]

/-- `CheckResponse` on a non-2xx status returns a typed error carrying
exactly that status code. -/
theorem CheckResponse_err (statusCode : Int) (body : String)
    (h : ¬(200 ≤ statusCode ∧ statusCode ≤ 299)) :
    ∃ e, CheckResponse statusCode body = some e ∧ e.statusCode = statusCode := by
  unfold CheckResponse
  rw [if_neg h]
  exact ⟨_, rfl, rfl⟩

/-- C5: each classification predicate of errors.go returns `true` exactly
when the error is the library's own typed error (`*ErrorResponse`) whose
carried status code equals the predicate's code — 404, 400, 401, 403,
409, 422, 429 — or lies in its range — 400–499 for client error, 500–599
for server error — and returns `false` for every other error kind,
including transport errors and the distinct `*RateLimitError` type. -/
theorem c5_classification_predicates (err : GoError) :
    (IsNotFound err = true ↔ ∃ e, err = GoError.errorResponse e ∧ e.statusCode = 404)
    ∧ (IsBadRequest err = true ↔ ∃ e, err = GoError.errorResponse e ∧ e.statusCode = 400)
    ∧ (IsUnauthorized err = true ↔ ∃ e, err = GoError.errorResponse e ∧ e.statusCode = 401)
    ∧ (IsForbidden err = true ↔ ∃ e, err = GoError.errorResponse e ∧ e.statusCode = 403)
    ∧ (IsConflict err = true ↔ ∃ e, err = GoError.errorResponse e ∧ e.statusCode = 409)
    ∧ (IsUnprocessableEntity err = true ↔
        ∃ e, err = GoError.errorResponse e ∧ e.statusCode = 422)
    ∧ (IsRateLimited err = true ↔ ∃ e, err = GoError.errorResponse e ∧ e.statusCode = 429)
    ∧ (IsClientError err = true ↔
        ∃ e, err = GoError.errorResponse e ∧ 400 ≤ e.statusCode ∧ e.statusCode ≤ 499)
    ∧ (IsServerError err = true ↔
        ∃ e, err = GoError.errorResponse e ∧ 500 ≤ e.statusCode ∧ e.statusCode ≤ 599) := by
  cases err <;>
    simp [IsNotFound, IsBadRequest, IsUnauthorized, IsForbidden, IsConflict,
      IsUnprocessableEntity, IsRateLimited, IsClientError, IsServerError]
  omega

/-- Witness for C5 at concrete errors: a 404 typed error satisfies the
not-found predicate, while a transport error and a `*RateLimitError`
value do not. -/
theorem c5_classification_predicates_witness :
    IsNotFound (GoError.errorResponse ⟨404, "nf", "", "", []⟩) = true
    ∧ IsNotFound (GoError.transport "dns failure") = false
    ∧ IsRateLimited (GoError.rateLimitError ⟨429, "slow down", "", "", []⟩ 60) = false :=
  ⟨(c5_classification_predicates (GoError.errorResponse ⟨404, "nf", "", "", []⟩)).1.mpr
      ⟨⟨404, "nf", "", "", []⟩, rfl, rfl⟩,
   rfl, rfl⟩

/-- C8: a base-URL construction option whose argument fails URL parsing
leaves the client's base URL (indeed the whole client) unchanged, and
construction still succeeds with no reported error: appending such an
option to any option list yields the same client. -/
theorem c8_bad_base_url_ignored (opts : List ClientOption) (s : String)
    (h : urlParse s = none) :
    (∀ c : Client, WithBaseURL s c = c)
    ∧ NewClient (opts ++ [WithBaseURL s]) = NewClient opts := by
  have hw : ∀ c : Client, WithBaseURL s c = c := by
    intro c
    simp [WithBaseURL, h]
  refine ⟨hw, ?_⟩
  unfold NewClient
  rw [List.foldl_append]
  simp [hw]

/-- Witness for C8: a base URL containing a control byte fails to parse,
and the option carrying it is a no-op on construction. -/
theorem c8_bad_base_url_ignored_witness :
    urlParse "http://bad\x01host" = none
    ∧ NewClient ([WithAPIKey "k"] ++ [WithBaseURL "http://bad\x01host"])
        = NewClient [WithAPIKey "k"] :=
  ⟨rfl, (c8_bad_base_url_ignored [WithAPIKey "k"] "http://bad\x01host" rfl).2⟩

/-- C9: for a 204 (no content) response and any non-null destination,
`Do` returns success (nil error) and the destination is left completely
unmodified — no decode is attempted and no bytes are copied. (The
statement covers all destinations; the null destination is trivially
untouched as well.) -/
theorem c9_no_content_leaves_destination (resp : HttpResp) (v : Dest) (res : DoResult)
    (hstatus : resp.statusCode = 204) (h : Do resp v = some res) :
    res.error = none ∧ res.dest = v := by
  unfold Do at h
  split at h
  · exact absurd h (by simp)
  · have hc : CheckResponse resp.statusCode resp.body = none := by
      unfold CheckResponse
      rw [if_pos (by rw [hstatus]; norm_num)]
    rw [hc, hstatus] at h
    dsimp only at h
    rw [if_neg (by simp)] at h
    injection h with h2
    rw [← h2]
    exact ⟨rfl, rfl⟩

/-- Witness for C9 at a concrete 204 response with a JSON destination
holding a previous value: the error is nil and the destination keeps its
value. -/
theorem c9_no_content_leaves_destination_witness :
    (DoResult.error ⟨⟨204, PageValues.zero, Rate.zero⟩, none, Dest.jsonDest (some Json.null)⟩
        = none)
    ∧ (DoResult.dest ⟨⟨204, PageValues.zero, Rate.zero⟩, none, Dest.jsonDest (some Json.null)⟩
        = Dest.jsonDest (some Json.null)) :=
  c9_no_content_leaves_destination ⟨204, [], "ignored"⟩ (Dest.jsonDest (some Json.null))
    ⟨⟨204, PageValues.zero, Rate.zero⟩, none, Dest.jsonDest (some Json.null)⟩ rfl rfl

/-- C3 (code bug): the claim says every malformed `Link` entry is
silently skipped with no failure. The loop does skip entries with a wrong
segment count, an unparsable URL or a non-numeric page, but an entry
whose second segment contains no `=` (a missing `rel`, e.g. `...; rel`)
drives `strings.Split(segments[1], "=")[1]` out of range and panics
(first conjunct, `none` = panic); well-formed entries around other
malformed shapes are still parsed (second conjunct). -/
theorem c3_malformed_entry_panic :
    populatePageValues "<http://api.test/items?page=2>; rel" = none
    ∧ populatePageValues
        ("<http://api.test/items?page=3>; rel=\"next\", garbage, malformed;x;y, "
          ++ "<http://api.test/items?page=10>; rel=\"last\"")
        = some ⟨3, 0, 0, 10⟩ :=
  ⟨rfl, rfl⟩

/-- C2 (amended): on every received response (any status code), `Do`
constructs the envelope and populates the pagination fields from the
`Link` header (provided that parsing does not panic, see C3), but the
rate-limit fields are never populated from any header: the envelope's
`Rate` is always the zero value. -/
theorem c2_envelope_pages_only (resp : HttpResp) (v : Dest) (res : DoResult)
    (h : Do resp v = some res) :
    res.response.statusCode = resp.statusCode
    ∧ some res.response.pages = populatePageValues (headerGet resp.headers "Link")
    ∧ res.response.rate = Rate.zero := by
  unfold Do at h
  split at h
  · exact absurd h (by simp)
  · rename_i pv hp
    dsimp only at h
    have hfin : res.response = ⟨resp.statusCode, pv, Rate.zero⟩ := by
      split at h
      · injection h with h2; rw [← h2]
      · split at h
        · cases v with
          | null => injection h with h2; rw [← h2]
          | writer buf => injection h with h2; rw [← h2]
          | jsonDest jv =>
            dsimp only at h
            split at h
            · injection h with h2; rw [← h2]
            · split at h
              · injection h with h2; rw [← h2]
              · injection h with h2; rw [← h2]
        · injection h with h2; rw [← h2]
    exact ⟨by rw [hfin], by rw [hfin, hp], by rw [hfin]⟩

/-- Witness for C2 (amended) at a concrete 429 response that carries
rate-limit headers: the envelope is built, pagination parsed, rate zero. -/
theorem c2_envelope_pages_only_witness :
    (Response.statusCode ⟨429, PageValues.zero, Rate.zero⟩ = (429 : Int))
    ∧ some (Response.pages ⟨429, PageValues.zero, Rate.zero⟩) = populatePageValues ""
    ∧ Response.rate ⟨429, PageValues.zero, Rate.zero⟩ = Rate.zero := by
  have h := c2_envelope_pages_only
    ⟨429, [("X-RateLimit-Limit", "100")], "\x7b\"message\":\"slow\"\x7d"⟩ Dest.null
    ⟨⟨429, PageValues.zero, Rate.zero⟩,
      some (DoErr.api ⟨429, "slow", "", "", []⟩), Dest.null⟩ rfl
  exact h

/-- C2 counterexample: the claim as stated also requires the rate-limit
fields (limit, remaining, reset) to be populated from the dedicated
rate-limit headers when present; on a response carrying such headers with
limit 100, the envelope's rate stays the zero value — no code path reads
those headers. -/
theorem c2_counterexample :
    (Do ⟨429, [("X-RateLimit-Limit", "100"), ("X-RateLimit-Remaining", "0"),
            ("X-RateLimit-Reset", "1739397600")], ""⟩ Dest.null).map
        (fun r => r.response.rate) = some Rate.zero
    ∧ headerGet [("X-RateLimit-Limit", "100"), ("X-RateLimit-Remaining", "0"),
            ("X-RateLimit-Reset", "1739397600")] "X-RateLimit-Limit" = "100"
    ∧ Rate.zero.limit ≠ (100 : Int) :=
  ⟨rfl, rfl, by decide⟩

/-- C1 (amended): once a response is received (and pagination parsing
does not panic, see C3), `Do` returns: for a status in [200,299], a nil
error unless JSON-decoding of the body into the destination fails — in
particular the error is nil whenever the destination is null or a byte
sink, the status is 204, the body is empty, or the body decodes; for a
status outside [200,299], always the non-nil typed `*ErrorResponse`
carrying exactly that status code. -/
theorem c1_do_status_classification (resp : HttpResp) (v : Dest) (res : DoResult)
    (h : Do resp v = some res) :
    (200 ≤ resp.statusCode ∧ resp.statusCode ≤ 299 →
       (res.error = none ∨ res.error = some DoErr.decodeFailure)
       ∧ ((v = Dest.null ∨ (∃ b, v = Dest.writer b) ∨ resp.statusCode = 204
            ∨ trimSpace resp.body = "" ∨ (jsonDecodeOne resp.body).isSome = true) →
          res.error = none))
    ∧ (¬(200 ≤ resp.statusCode ∧ resp.statusCode ≤ 299) →
       ∃ e, res.error = some (DoErr.api e) ∧ e.statusCode = resp.statusCode) := by
  unfold Do at h
  split at h
  · exact absurd h (by simp)
  · rename_i pv hp
    dsimp only at h
    by_cases h2xx : 200 ≤ resp.statusCode ∧ resp.statusCode ≤ 299
    · rw [CheckResponse_2xx resp.statusCode resp.body h2xx] at h
      dsimp only at h
      refine ⟨fun _ => ?_, fun hn => absurd h2xx hn⟩
      by_cases h204 : resp.statusCode ≠ 204
      · rw [if_pos h204] at h
        cases v with
        | null => injection h with h2; rw [← h2]; exact ⟨Or.inl rfl, fun _ => rfl⟩
        | writer buf => injection h with h2; rw [← h2]; exact ⟨Or.inl rfl, fun _ => rfl⟩
        | jsonDest jv =>
          dsimp only at h
          by_cases hemp : trimSpace resp.body = ""
          · rw [if_pos hemp] at h
            injection h with h2; rw [← h2]; exact ⟨Or.inl rfl, fun _ => rfl⟩
          · rw [if_neg hemp] at h
            rcases hone : jsonDecodeOne resp.body with _ | j <;> rw [hone] at h
            · injection h with h2; rw [← h2]
              refine ⟨Or.inr rfl, fun hd => ?_⟩
              rcases hd with hd | ⟨b, hd⟩ | hd | hd | hd
              · exact absurd hd (by simp)
              · exact absurd hd (by simp)
              · exact absurd hd (by simpa using h204)
              · exact absurd hd hemp
              · simp at hd
            · injection h with h2; rw [← h2]; exact ⟨Or.inl rfl, fun _ => rfl⟩
      · rw [if_neg h204] at h
        injection h with h2; rw [← h2]; exact ⟨Or.inl rfl, fun _ => rfl⟩
    · obtain ⟨e, hce, hst⟩ := CheckResponse_err resp.statusCode resp.body h2xx
      rw [hce] at h
      dsimp only at h
      injection h with h2
      rw [← h2]
      exact ⟨fun hx => absurd hx h2xx, fun _ => ⟨e, rfl, hst⟩⟩

/-- Witness for C1 (amended) at a concrete 404 response: the returned
error is the typed error carrying status 404. -/
theorem c1_do_status_classification_witness :
    ∃ e, DoResult.error ⟨⟨404, PageValues.zero, Rate.zero⟩,
          some (DoErr.api ⟨404, "nf", "", "", []⟩), Dest.null⟩
        = some (DoErr.api e) ∧ e.statusCode = (404 : Int) :=
  (c1_do_status_classification ⟨404, [], "nf"⟩ Dest.null
    ⟨⟨404, PageValues.zero, Rate.zero⟩, some (DoErr.api ⟨404, "nf", "", "", []⟩), Dest.null⟩
    rfl).2 (by norm_num)

/-- C1 counterexample: the claim as stated promises a nil error for every
2xx response and every destination; a 200 response whose body `"x"` does
not JSON-decode, with a JSON destination, yields a non-nil decode
error. -/
theorem c1_counterexample :
    Do ⟨200, [], "x"⟩ (Dest.jsonDest none)
      = some ⟨⟨200, PageValues.zero, Rate.zero⟩, some DoErr.decodeFailure, Dest.jsonDest none⟩
    ∧ (200 ≤ (200 : Int) ∧ (200 : Int) ≤ 299)
    ∧ (some DoErr.decodeFailure ≠ (none : Option DoErr)) :=
  ⟨rfl, by norm_num, by simp⟩

/-- A key absent from an association list looks up to `none`. -/
theorem lookup_none_of_not_mem (k : String) (l : List (String × Json))
    (h : k ∉ l.map Prod.fst) : List.lookup k l = none := by
  induction l with
  | nil => rfl
  | cons p rest ih =>
    obtain ⟨a, b⟩ := p
    rw [List.lookup]
    have hne : (k == a) = false := by
      refine beq_false_of_ne ?_
      intro hka
      exact h (by simp [hka])
    rw [hne]
    exact ih (fun hm => h (by simp [List.mem_cons]; right; simpa using hm))

/-- Unmarshalling one `ErrorDetail` member list succeeds when every
member carries a string value. -/
theorem foldDetail_ok (dfields : List (String × Json)) :
    ∀ d0 : ErrDetail,
      (∀ q ∈ dfields, ∃ s, q.2 = Json.str s) →
      ∃ d, List.foldlM (fun d p => decodeDetailField d p.1 p.2) d0 dfields = some d := by
  induction dfields with
  | nil => exact fun d0 _ => ⟨d0, rfl⟩
  | cons q rest ih =>
    intro d0 hq
    obtain ⟨s, hs⟩ := hq q (List.mem_cons_self _ _)
    have hstep : ∃ d1, decodeDetailField d0 q.1 q.2 = some d1 := by
      unfold decodeDetailField
      rw [hs]
      dsimp only
      split_ifs <;> exact ⟨_, rfl⟩
    obtain ⟨d1, hd1⟩ := hstep
    obtain ⟨d, hd⟩ := ih d1 (fun r hr => hq r (List.mem_cons_of_mem _ hr))
    exact ⟨d, by rw [List.foldlM_cons, hd1]; simpa using hd⟩

/-- `mapM decodeDetail` succeeds when every element decodes. -/
theorem mapM_detail_ok (items : List Json)
    (h : ∀ i ∈ items, ∃ d, decodeDetail i = some d) :
    ∃ ds, items.mapM decodeDetail = some ds := by
  induction items with
  | nil => exact ⟨[], rfl⟩
  | cons i rest ih =>
    obtain ⟨d, hd⟩ := h i (List.mem_cons_self _ _)
    obtain ⟨ds, hds⟩ := ih (fun j hj => h j (List.mem_cons_of_mem _ hj))
    exact ⟨d :: ds, by rw [List.mapM_cons, hd, hds]; rfl⟩

/-- Characterisation of unmarshalling into the `ErrorResponse` fields: on
an object whose members have the documented keys with string values (the
optional `errors` member carrying a decodable array), the member fold
succeeds, and the string fields come out equal to the looked-up members
(defaulting to the initial record for absent members). -/
theorem foldErr_char (fields : List (String × Json)) :
    ∀ d0 : ErrData,
      (∀ p ∈ fields, p.1 = "message" ∨ p.1 = "code" ∨ p.1 = "request_id" ∨ p.1 = "errors") →
      (fields.map Prod.fst).Nodup →
      (∀ p ∈ fields, p.1 ≠ "errors" → ∃ s, p.2 = Json.str s) →
      (∀ p ∈ fields, p.1 = "errors" → ∃ items, p.2 = Json.arr items ∧
        ∀ i ∈ items, ∃ d, decodeDetail i = some d) →
      ∃ dfin, List.foldlM (fun d p => decodeErrField d p.1 p.2) d0 fields = some dfin
        ∧ dfin.message = strFieldD (List.lookup "message" fields) d0.message
        ∧ dfin.code = strFieldD (List.lookup "code" fields) d0.code
        ∧ dfin.requestID = strFieldD (List.lookup "request_id" fields) d0.requestID := by
  induction fields with
  | nil => exact fun d0 _ _ _ _ => ⟨d0, rfl, rfl, rfl, rfl⟩
  | cons p rest ih =>
    intro d0 hkeys hnodup hstr herr
    obtain ⟨k, v⟩ := p
    have hcons : (k :: rest.map Prod.fst).Nodup := by
      rw [List.map_cons] at hnodup
      exact hnodup
    have hnd1 : k ∉ rest.map Prod.fst := (List.nodup_cons.mp hcons).1
    have hnd2 : (rest.map Prod.fst).Nodup := (List.nodup_cons.mp hcons).2
    have hkeys' := fun q hq => hkeys q (List.mem_cons_of_mem _ hq)
    have hstr' := fun q hq => hstr q (List.mem_cons_of_mem _ hq)
    have herr' := fun q hq => herr q (List.mem_cons_of_mem _ hq)
    have hlookup_rest : ∀ name : String, k = name →
        List.lookup name rest = none := by
      intro name hname
      exact lookup_none_of_not_mem name rest (hname ▸ hnd1)
    rcases hkeys (k, v) (List.mem_cons_self _ _) with hk | hk | hk | hk <;>
      (have hk1 : k = _ := hk; subst hk1)
    · obtain ⟨s, hs⟩ := hstr ("message", v) (List.mem_cons_self _ _) (show ("message" : String) ≠ "errors" by decide)
      subst hs
      obtain ⟨dfin, hf, hm, hc, hr⟩ := ih { d0 with message := s } hkeys' hnd2 hstr' herr'
      refine ⟨dfin, ?_, ?_, ?_, ?_⟩
      · rw [List.foldlM_cons]
        have hstep : decodeErrField d0 "message" (Json.str s)
            = some { d0 with message := s } := rfl
        rw [hstep]
        simpa using hf
      · rw [hm, hlookup_rest "message" rfl]
        simp [List.lookup, strFieldD]
      · rw [hc]
        simp [List.lookup, strFieldD]
      · rw [hr]
        simp [List.lookup, strFieldD]
    · obtain ⟨s, hs⟩ := hstr ("code", v) (List.mem_cons_self _ _) (show ("code" : String) ≠ "errors" by decide)
      subst hs
      obtain ⟨dfin, hf, hm, hc, hr⟩ := ih { d0 with code := s } hkeys' hnd2 hstr' herr'
      refine ⟨dfin, ?_, ?_, ?_, ?_⟩
      · rw [List.foldlM_cons]
        have hstep : decodeErrField d0 "code" (Json.str s)
            = some { d0 with code := s } := rfl
        rw [hstep]
        simpa using hf
      · rw [hm]
        simp [List.lookup, strFieldD]
      · rw [hc, hlookup_rest "code" rfl]
        simp [List.lookup, strFieldD]
      · rw [hr]
        simp [List.lookup, strFieldD]
    · obtain ⟨s, hs⟩ := hstr ("request_id", v) (List.mem_cons_self _ _) (show ("request_id" : String) ≠ "errors" by decide)
      subst hs
      obtain ⟨dfin, hf, hm, hc, hr⟩ := ih { d0 with requestID := s } hkeys' hnd2 hstr' herr'
      refine ⟨dfin, ?_, ?_, ?_, ?_⟩
      · rw [List.foldlM_cons]
        have hstep : decodeErrField d0 "request_id" (Json.str s)
            = some { d0 with requestID := s } := rfl
        rw [hstep]
        simpa using hf
      · rw [hm]
        simp [List.lookup, strFieldD]
      · rw [hc]
        simp [List.lookup, strFieldD]
      · rw [hr, hlookup_rest "request_id" rfl]
        simp [List.lookup, strFieldD]
    · obtain ⟨items, hv, hitems⟩ := herr ("errors", v) (List.mem_cons_self _ _) rfl
      subst hv
      obtain ⟨ds, hds⟩ := mapM_detail_ok items hitems
      obtain ⟨dfin, hf, hm, hc, hr⟩ := ih { d0 with errors := ds } hkeys' hnd2 hstr' herr'
      refine ⟨dfin, ?_, ?_, ?_, ?_⟩
      · rw [List.foldlM_cons]
        have hstep : decodeErrField d0 "errors" (Json.arr items)
            = (decodeDetails d0.errors (Json.arr items)).map
                (fun es => { d0 with errors := es }) := rfl
        rw [hstep]
        have hdd : decodeDetails d0.errors (Json.arr items) = items.mapM decodeDetail := rfl
        rw [hdd, hds]
        simpa using hf
      · rw [hm]
        simp [List.lookup, strFieldD]
      · rw [hc]
        simp [List.lookup, strFieldD]
      · rw [hr]
        simp [List.lookup, strFieldD]

/-- A nonempty string has positive length. -/
theorem length_pos_of_ne_empty (s : String) (h : s ≠ "") : s.length > 0 := by
  cases s with
  | mk data =>
    cases data with
    | nil => exact absurd rfl h
    | cons c cs => simp [String.length]

/-- C4: for every non-2xx response, a body that parses as the documented
JSON error shape — required string `message`, optional string `code` and
`request_id`, optional `errors` list of decodable field-error objects —
yields a typed error whose `Message`, `Code` and `RequestID` exactly
equal the corresponding JSON members (an absent optional member leaving
the zero `""`), and a body that does not unmarshal (non-JSON or
malformed) yields a typed error whose `Message` equals the raw body
text. -/
theorem c4_error_body_fidelity (statusCode : Int) (body : String)
    (hstatus : ¬(200 ≤ statusCode ∧ statusCode ≤ 299)) :
    (∀ fields,
       jsonParse body = some (Json.obj fields) →
       (∀ p ∈ fields, p.1 = "message" ∨ p.1 = "code" ∨ p.1 = "request_id" ∨ p.1 = "errors") →
       (fields.map Prod.fst).Nodup →
       (∀ p ∈ fields, p.1 ≠ "errors" → ∃ s, p.2 = Json.str s) →
       (∀ p ∈ fields, p.1 = "errors" → ∃ items, p.2 = Json.arr items ∧
          ∀ i ∈ items, ∃ d, decodeDetail i = some d) →
       (∃ m, List.lookup "message" fields = some (Json.str m)) →
       ∀ er, CheckResponse statusCode body = some er →
         er.statusCode = statusCode
         ∧ er.message = strField (List.lookup "message" fields)
         ∧ er.code = strField (List.lookup "code" fields)
         ∧ er.requestID = strField (List.lookup "request_id" fields))
    ∧ (unmarshalER body = none → body ≠ "" →
        CheckResponse statusCode body = some ⟨statusCode, body, "", "", []⟩) := by
  constructor
  · intro fields hparse hkeys hnodup hstr herr _hmsg er her
    have hbne : body ≠ "" := by
      intro hb
      have hemptyparse : jsonParse "" = none := rfl
      rw [hb, hemptyparse] at hparse
      exact Option.noConfusion hparse
    have hunm : unmarshalER body
        = List.foldlM (fun d p => decodeErrField d p.1 p.2) ErrData.zero fields := by
      unfold unmarshalER
      rw [hparse]
    obtain ⟨dfin, hf, hm, hc, hr⟩ := foldErr_char fields ErrData.zero hkeys hnodup hstr herr
    rw [hf] at hunm
    unfold CheckResponse at her
    rw [if_neg hstatus] at her
    dsimp only at her
    rw [if_pos (length_pos_of_ne_empty body hbne), hunm] at her
    injection her with h2
    rw [← h2]
    exact ⟨rfl, hm, hc, hr⟩
  · intro hunm hbne
    unfold CheckResponse
    rw [if_neg hstatus]
    dsimp only
    rw [if_pos (length_pos_of_ne_empty body hbne), hunm]
    rfl

/-- Witness for C4 at the spec's own scenario — status 404 with body
carrying `message` and `code` — and at a plain-text 500 body. -/
theorem c4_error_body_fidelity_witness :
    ((ErrorResponse.statusCode ⟨404, "Application not found", "RESOURCE_NOT_FOUND", "", []⟩
        = (404 : Int))
     ∧ ErrorResponse.message ⟨404, "Application not found", "RESOURCE_NOT_FOUND", "", []⟩
        = strField (List.lookup "message"
            [("message", Json.str "Application not found"),
             ("code", Json.str "RESOURCE_NOT_FOUND")])
     ∧ ErrorResponse.code ⟨404, "Application not found", "RESOURCE_NOT_FOUND", "", []⟩
        = strField (List.lookup "code"
            [("message", Json.str "Application not found"),
             ("code", Json.str "RESOURCE_NOT_FOUND")])
     ∧ ErrorResponse.requestID ⟨404, "Application not found", "RESOURCE_NOT_FOUND", "", []⟩
        = strField (List.lookup "request_id"
            [("message", Json.str "Application not found"),
             ("code", Json.str "RESOURCE_NOT_FOUND")]))
    ∧ CheckResponse 500 "Internal Server Error"
        = some ⟨500, "Internal Server Error", "", "", []⟩ := by
  constructor
  · exact (c4_error_body_fidelity 404
      "\x7b\"message\":\"Application not found\",\"code\":\"RESOURCE_NOT_FOUND\"\x7d"
      (by norm_num)).1
      [("message", Json.str "Application not found"), ("code", Json.str "RESOURCE_NOT_FOUND")]
      rfl (by simp) (by decide) (by simp) (by simp)
      ⟨"Application not found", rfl⟩
      ⟨404, "Application not found", "RESOURCE_NOT_FOUND", "", []⟩ rfl
  · exact (c4_error_body_fidelity 500 "Internal Server Error" (by norm_num)).2 rfl (by decide)

/-- The code points of a plain character: `-`, `_`, a digit, or a
letter. -/
theorem plainChar_toNat (c : Char) (h : plainChar c = true) :
    c.toNat = 45 ∨ c.toNat = 95 ∨ (48 ≤ c.toNat ∧ c.toNat ≤ 57)
      ∨ (65 ≤ c.toNat ∧ c.toNat ≤ 90) ∨ (97 ≤ c.toNat ∧ c.toNat ≤ 122) := by
  simp only [plainChar, isAlphaChar, isDigitChar, Bool.or_eq_true, Bool.and_eq_true,
    decide_eq_true_eq, beq_iff_eq] at h
  rcases h with (((h | h) | h) | h) | h
  · omega
  · omega
  · omega
  · subst h; decide
  · subst h; decide

/-- A plain character differs from every URL metacharacter the parser
inspects (chosen by code point). -/
theorem plainChar_ne (c : Char) (h : plainChar c = true) (d : Char)
    (hd : d.toNat = 35 ∨ d.toNat = 37 ∨ d.toNat = 46 ∨ d.toNat = 47
      ∨ d.toNat = 58 ∨ d.toNat = 63) : c ≠ d := by
  intro heq
  subst heq
  rcases plainChar_toNat c h with h1 | h1 | h1 | h1 | h1 <;> omega

/-- A plain character is not a control character. -/
theorem plainChar_not_ctl (c : Char) (h : plainChar c = true) :
    isCtlChar c = false := by
  rcases plainChar_toNat c h with h1 | h1 | h1 | h1 | h1 <;>
    simp [isCtlChar] <;> omega

/-- Dropping the length of the `takeWhile` prefix is `dropWhile`. -/
theorem drop_takeWhile_length (p : Char → Bool) (l : List Char) :
    l.drop (l.takeWhile p).length = l.dropWhile p := by
  induction l with
  | nil => rfl
  | cons c rest ih =>
    by_cases hc : p c
    · simp [List.takeWhile_cons, List.dropWhile_cons, hc, ih]
    · simp [List.takeWhile_cons, List.dropWhile_cons, hc]

/-- Splitting on an absent separator returns the single whole piece. -/
theorem splitOnC_eq_single (sep : Char) (l : List Char) (h : ∀ ch ∈ l, ch ≠ sep) :
    splitOnC sep l = [l] := by
  induction l with
  | nil => rfl
  | cons c rest ih =>
    unfold splitOnC
    dsimp only
    rw [if_neg (h c (List.mem_cons_self _ _)),
      ih (fun ch hch => h ch (List.mem_cons_of_mem _ hch))]

/-- Cutting on an absent separator returns the whole string, an empty
remainder, and `found = false`. -/
theorem goCut_no_sep (l : List Char) (sep : Char) (h : ∀ ch ∈ l, ch ≠ sep) :
    goCut (String.mk l) sep = (String.mk l, "", false) := by
  unfold goCut
  have htw : l.takeWhile (fun c => c != sep) = l :=
    List.takeWhile_eq_self_iff.mpr (fun c hc => by
      simpa using h c hc)
  have hdrop : l.drop (l.takeWhile (fun c => c != sep)).length = [] := by
    rw [htw]
    simp
  show (match l.drop (l.takeWhile (fun c => c != sep)).length with
    | [] => (String.mk (l.takeWhile (fun c => c != sep)), "", false)
    | _ :: after => (String.mk (l.takeWhile (fun c => c != sep)), String.mk after, true))
      = (String.mk l, "", false)
  rw [hdrop, htw]

/-- `getScheme` on an input without `:` finds no scheme. -/
theorem getScheme_no_colon (l : List Char) (h : (':' : Char) ∉ l) :
    getScheme l = some ([], l) := by
  unfold getScheme
  dsimp only
  rw [drop_takeWhile_length]
  rcases hdw : l.dropWhile isSchemeChar with _ | ⟨c, rest⟩
  · rfl
  · have hc : c ≠ ':' := by
      intro heq
      refine h ?_
      rw [← heq]
      exact (List.dropWhile_sublist (l := l) (p := isSchemeChar)).subset
        (by rw [hdw]; exact List.mem_cons_self _ _)
    split
    · rename_i after heq
      injection heq with h1 _
      exact absurd h1 hc
    · rfl

/-- `validEscapes` holds on inputs without `%`. -/
theorem validEscapes_no_pct (l : List Char) (h : ('%' : Char) ∉ l) :
    validEscapes l = true := by
  induction l with
  | nil => rfl
  | cons c rest ih =>
    unfold validEscapes
    rw [if_neg (by intro heq; exact h (heq ▸ List.mem_cons_self _ _))]
    exact ih (fun hm => h (List.mem_cons_of_mem _ hm))

/-- `urlParse` on a string of plain characters: a relative
reference whose path is the whole input. -/
theorem urlParse_plain (P : String)
    (hp : ∀ ch ∈ P.toList, plainChar ch = true) :
    urlParse P = some ⟨"", "", "", false, P, "", ""⟩ := by
  have hnohash : ∀ ch ∈ P.toList, ch ≠ '#' :=
    fun ch hch => plainChar_ne ch (hp ch hch) '#' (Or.inl rfl)
  have hnocolon : (':' : Char) ∉ P.toList := by
    intro hm
    exact absurd rfl (plainChar_ne ':' (hp ':' hm) ':'
      (Or.inr (Or.inr (Or.inr (Or.inr (Or.inl rfl))))))
  have hnoq : ∀ ch ∈ P.toList, ch ≠ '?' :=
    fun ch hch => plainChar_ne ch (hp ch hch) '?'
      (Or.inr (Or.inr (Or.inr (Or.inr (Or.inr rfl)))))
  have hnoslash : ∀ ch ∈ P.toList, ch ≠ '/' :=
    fun ch hch => plainChar_ne ch (hp ch hch) '/'
      (Or.inr (Or.inr (Or.inr (Or.inl rfl))))
  have hnopct : ('%' : Char) ∉ P.toList := by
    intro hm
    exact absurd rfl (plainChar_ne '%' (hp '%' hm) '%' (Or.inr (Or.inl rfl)))
  have hmkP : String.mk P.toList = P := rfl
  have hstart : startsWithC P.toList '/' = false := by
    rcases hP : P.toList with _ | ⟨c, rest⟩
    · rfl
    · simp [startsWithC]
      exact hnoslash c (by rw [hP]; exact List.mem_cons_self _ _)
  unfold urlParse
  rw [if_neg (by
    intro hany
    rcases List.any_eq_true.mp hany with ⟨c, hc, hctl⟩
    rw [plainChar_not_ctl c (hp c hc)] at hctl
    exact Bool.false_ne_true hctl)]
  rw [show goCut P '#' = (P, "", false) from by
    rw [← hmkP]; exact goCut_no_sep P.toList '#' hnohash]
  dsimp only
  rw [getScheme_no_colon P.toList hnocolon]
  dsimp only
  rw [show goCut (String.mk P.toList) '?' = (P, "", false) from by
    rw [goCut_no_sep P.toList '?' hnoq]
    rfl]
  dsimp only
  rw [if_pos (show (!startsWithC P.toList '/') = true from by rw [hstart]; rfl)]
  rw [if_neg (show ¬(String.mk (toLowerL []) ≠ "") from by decide)]
  rw [splitOnC_eq_single '/' P.toList hnoslash]
  rw [if_neg (show ¬((([P.toList] : List (List Char)).headD []).contains ':' = true) from by
    intro hcontains
    exact hnocolon (by simpa using hcontains))]
  rw [if_pos (validEscapes_no_pct P.toList hnopct)]
  rfl

/-- `removeDotSegments` fixes a rooted single plain segment. -/
theorem removeDotSegments_single (l : List Char)
    (hnoslash : ∀ ch ∈ l, ch ≠ '/') (hd1 : l ≠ ['.']) (hd2 : l ≠ ['.', '.']) :
    removeDotSegments ('/' :: l) = '/' :: l := by
  unfold removeDotSegments
  dsimp only
  rw [if_pos (show startsWithC ('/' :: l) '/' = true by simp [startsWithC])]
  rw [show ('/' :: l).drop 1 = l from rfl]
  rw [splitOnC_eq_single '/' l hnoslash]
  rw [show List.foldl rdsStep [] [l] = rdsStep [] l from rfl]
  rw [show rdsStep [] l = [l] from by unfold rdsStep; rw [if_neg hd1, if_neg hd2]; rfl]
  rw [show ([l] : List (List Char)).getLast? = some l from rfl]
  rw [if_neg (by simp [hd1, hd2])]
  simp [List.intercalate]

/-- `urlString` of the default host with a rooted path. -/
theorem urlString_default (P : String) :
    urlString ⟨"https", "", "api.sevalla.com", true, "/" ++ P, "", ""⟩
      = "https://api.sevalla.com/" ++ P := by
  unfold urlString
  simp only [show ("/" ++ P).toList = '/' :: P.toList from rfl, startsWithC]
  simp
  rw [← String.append_assoc, ← String.append_assoc]
  rw [show (("https:" ++ "//api.sevalla.com") ++ "/" : String)
      = "https://api.sevalla.com/" from rfl]

/-- Resolving a plain relative segment against the default base URL
replaces the base path's last segment (`/v2` has no trailing slash, so
the merge keeps only `/`). -/
theorem resolveReference_default_plain (P : String) (hne : P ≠ "")
    (hp : ∀ ch ∈ P.toList, plainChar ch = true) :
    resolveReference ⟨"https", "", "api.sevalla.com", true, "/v2", "", ""⟩
        ⟨"", "", "", false, P, "", ""⟩
      = ⟨"https", "", "api.sevalla.com", true, "/" ++ P, "", ""⟩ := by
  have hnoslash : ∀ ch ∈ P.toList, ch ≠ '/' :=
    fun ch hch => plainChar_ne ch (hp ch hch) '/' (Or.inr (Or.inr (Or.inr (Or.inl rfl))))
  have hd1 : P.toList ≠ ['.'] := by
    intro he
    have hdot : plainChar '.' = true := hp '.' (by rw [he]; exact List.mem_cons_self _ _)
    exact absurd hdot (by decide)
  have hd2 : P.toList ≠ ['.', '.'] := by
    intro he
    have hdot : plainChar '.' = true := hp '.' (by rw [he]; exact List.mem_cons_self _ _)
    exact absurd hdot (by decide)
  have hstart : startsWithC P.toList '/' = false := by
    rcases hP : P.toList with _ | ⟨c, rest⟩
    · rfl
    · simp [startsWithC]
      exact hnoslash c (by rw [hP]; exact List.mem_cons_self _ _)
  unfold resolveReference
  rw [if_neg (show ¬(("" : String) ≠ "" ∨ ("" : String) ≠ "") by simp)]
  rw [if_neg (show ¬(("" : String) ≠ "") by simp)]
  dsimp only
  rw [if_neg (show ¬(P = "" ∧ ("" : String) = "") from fun hand => hne hand.1)]
  unfold resolvePath
  rw [if_neg hne, if_pos (show (!startsWithC P.toList '/') = true from by rw [hstart]; rfl)]
  rw [show upToLastSlash "/v2" = "/" from rfl]
  have hfne : ("/" ++ P : String) ≠ "" := by
    intro he
    have h0 : (("/" ++ P).toList : List Char) = [] := by rw [he]; rfl
    rw [show ("/" ++ P).toList = '/' :: P.toList from rfl] at h0
    exact List.noConfusion h0
  rw [if_neg hfne]
  rw [show ("/" ++ P).toList = '/' :: P.toList from rfl]
  rw [removeDotSegments_single P.toList hnoslash hd1 hd2]
  rfl

/-- C10: a client built with no options has the default base URL
`https://api.sevalla.com/v2` — path `/v2`, no trailing slash — so a
relative path with no leading `/` (the form every resource method uses)
resolves by replacing the base path's last segment: `applications` turns
into `https://api.sevalla.com/applications`, without the `/v2`
segment. -/
theorem c10_default_base_url_drops_v2 :
    (NewClient []).baseURL = ⟨"https", "", "api.sevalla.com", true, "/v2", "", ""⟩
    ∧ (∀ P : String, P ≠ "" → (∀ ch ∈ P.toList, plainChar ch = true) →
        ∀ req, NewRequest (NewClient []) "GET" P none = some req →
          urlString req.url = "https://api.sevalla.com/" ++ P)
    ∧ (NewRequest (NewClient []) "GET" "applications" none).map (fun r => urlString r.url)
        = some "https://api.sevalla.com/applications" := by
  refine ⟨rfl, ?_, rfl⟩
  intro P hne hp req hreq
  unfold NewRequest at hreq
  rw [urlParse_plain P hp] at hreq
  dsimp only at hreq
  injection hreq with h2
  rw [← h2]
  show urlString (resolveReference (NewClient []).baseURL ⟨"", "", "", false, P, "", ""⟩) = _
  rw [show (NewClient []).baseURL
      = ⟨"https", "", "api.sevalla.com", true, "/v2", "", ""⟩ from rfl]
  rw [resolveReference_default_plain P hne hp]
  exact urlString_default P

/-- Witness for C10 at the path `applications`. -/
theorem c10_default_base_url_drops_v2_witness :
    urlString (GoRequest.url
        ⟨"GET", ⟨"https", "", "api.sevalla.com", true, "/applications", "", ""⟩,
          [("User-Agent", UserAgent)], none⟩)
      = "https://api.sevalla.com/" ++ "applications" :=
  c10_default_base_url_drops_v2.2.1 "applications" (by decide) (by decide)
    ⟨"GET", ⟨"https", "", "api.sevalla.com", true, "/applications", "", ""⟩,
      [("User-Agent", UserAgent)], none⟩ rfl

/-- C6: `NewRequest` (the request builder) produces a request whose
method is the given verb and whose target URL is the standard
relative-resolution (`ResolveReference`) of the parsed path against the
configured base URL — an absolute reference path replaces the base path,
a relative one merges onto the base path up to its last `/` — and sets
`Authorization: Bearer <key>` whenever a key is configured. Concretely,
base `https://api.example.com/v2/` with path `applications/42`, method
GET and key `tok` gives method GET, URL
`https://api.example.com/v2/applications/42` and that bearer header. -/
theorem c6_request_building (c : Client) (method urlStr : String) (body : Option Json)
    (req : GoRequest) (h : NewRequest c method urlStr body = some req) :
    req.method = method
    ∧ (∀ ref, urlParse urlStr = some ref → req.url = resolveReference c.baseURL ref)
    ∧ (c.apiKey ≠ "" → headerGet req.headers "Authorization" = "Bearer " ++ c.apiKey)
    ∧ (∀ base ref : GoURL, ref.scheme = "" → ref.host = "" → ref.opq = "" →
        (startsWithC ref.path.toList '/' = true →
          (resolveReference base ref).path
            = String.mk (removeDotSegments ref.path.toList))
        ∧ (ref.path ≠ "" → startsWithC ref.path.toList '/' = false →
          (resolveReference base ref).path
            = String.mk (removeDotSegments (upToLastSlash base.path ++ ref.path).toList)))
    ∧ (c = ⟨⟨"https", "", "api.example.com", true, "/v2/", "", ""⟩, "tok", UserAgent⟩ →
        method = "GET" → urlStr = "applications/42" →
        urlString req.url = "https://api.example.com/v2/applications/42"
        ∧ headerGet req.headers "Authorization" = "Bearer tok") := by
  unfold NewRequest at h
  rcases hparse : urlParse urlStr with _ | ref0
  · rw [hparse] at h
    exact absurd h (by simp)
  · rw [hparse] at h
    dsimp only at h
    injection h with h2
    refine ⟨by rw [← h2], ?_, ?_, ?_, ?_⟩
    · intro ref href
      injection href with h3
      rw [← h2, ← h3]
    · intro hkey
      rw [← h2]
      show headerGet ((if body.isSome then [("Content-Type", "application/json")] else []) ++
        (if c.apiKey ≠ "" then [("Authorization", "Bearer " ++ c.apiKey)] else []) ++
        [("User-Agent", c.userAgent)]) "Authorization" = "Bearer " ++ c.apiKey
      rw [if_pos hkey]
      rcases hb : body.isSome with _ | _
      · rw [if_neg (by simp [hb])]
        rfl
      · rw [if_pos (by simp [hb])]
        rfl
    · intro base ref h1 h2r h3
      have hauth : ¬(ref.scheme ≠ "" ∨ ref.host ≠ "") := by
        simp [h1, h2r]
      constructor
      · intro habs
        have hpathne : ref.path ≠ "" := by
          intro hpe
          rw [hpe] at habs
          exact Bool.false_ne_true habs
        unfold resolveReference
        rw [if_neg hauth, if_neg (by simp [h3])]
        dsimp only
        unfold resolvePath
        rw [if_neg hpathne, if_neg (show ¬((!startsWithC ref.path.toList '/') = true) from by
          rw [habs]; simp)]
        rw [if_neg hpathne]
      · intro hpne hrel
        unfold resolveReference
        rw [if_neg hauth, if_neg (by simp [h3])]
        dsimp only
        unfold resolvePath
        rw [if_neg hpne, if_pos (show (!startsWithC ref.path.toList '/') = true from by
          rw [hrel]; rfl)]
        have hfullne : upToLastSlash base.path ++ ref.path ≠ "" := by
          intro hfe
          have hlist : (upToLastSlash base.path).toList ++ ref.path.toList = [] := by
            have hl2 : (upToLastSlash base.path ++ ref.path).toList = [] := by rw [hfe]; rfl
            exact hl2
          rcases List.append_eq_nil.mp hlist with ⟨_, hr⟩
          refine hpne ?_
          cases hP : ref.path with
          | mk d =>
            rw [hP] at hr
            simp at hr
            simp [hr]
        rw [if_neg hfullne]
    · intro hc hm hu
      subst hc hm hu
      have hcalc : urlParse "applications/42"
          = some ⟨"", "", "", false, "applications/42", "", ""⟩ := rfl
      rw [hcalc] at hparse
      injection hparse with h3
      rw [← h2, ← h3]
      rcases body with _ | b
      · exact ⟨rfl, rfl⟩
      · exact ⟨rfl, rfl⟩

/-- Witness for C6 at the spec's scenario. -/
theorem c6_request_building_witness :
    (NewRequest ⟨⟨"https", "", "api.example.com", true, "/v2/", "", ""⟩, "tok", UserAgent⟩
        "GET" "applications/42" none).isSome = true
    ∧ urlString (GoRequest.url
        ⟨"GET", ⟨"https", "", "api.example.com", true, "/v2/applications/42", "", ""⟩,
          [("Authorization", "Bearer tok"), ("User-Agent", UserAgent)], none⟩)
        = "https://api.example.com/v2/applications/42"
    ∧ headerGet (GoRequest.headers
        ⟨"GET", ⟨"https", "", "api.example.com", true, "/v2/applications/42", "", ""⟩,
          [("Authorization", "Bearer tok"), ("User-Agent", UserAgent)], none⟩)
        "Authorization" = "Bearer tok" := by
  refine ⟨rfl, ?_, ?_⟩
  · exact ((c6_request_building
      ⟨⟨"https", "", "api.example.com", true, "/v2/", "", ""⟩, "tok", UserAgent⟩
      "GET" "applications/42" none
      ⟨"GET", ⟨"https", "", "api.example.com", true, "/v2/applications/42", "", ""⟩,
        [("Authorization", "Bearer tok"), ("User-Agent", UserAgent)], none⟩
      rfl).2.2.2.2 rfl rfl rfl).1
  · exact ((c6_request_building
      ⟨⟨"https", "", "api.example.com", true, "/v2/", "", ""⟩, "tok", UserAgent⟩
      "GET" "applications/42" none
      ⟨"GET", ⟨"https", "", "api.example.com", true, "/v2/applications/42", "", ""⟩,
        [("Authorization", "Bearer tok"), ("User-Agent", UserAgent)], none⟩
      rfl).2.2.2.2 rfl rfl rfl).2

/-- What a plain JSON character excludes. -/
theorem plainJsonChar_facts (c : Char) (h : plainJsonChar c = true) :
    c ≠ '"' ∧ c ≠ '\\' ∧ 32 ≤ c.toNat ∧ c.toNat ≠ 8232 ∧ c.toNat ≠ 8233 := by
  simp only [plainJsonChar, Bool.and_eq_true, Bool.not_eq_true', beq_eq_false_iff_ne,
    decide_eq_true_eq] at h
  obtain ⟨⟨⟨⟨h1, h2⟩, h3⟩, h4⟩, h5⟩ := h
  exact ⟨h1, h2, h3, by simpa using h4, by simpa using h5⟩

/-- With HTML escaping off, a plain character is encoded as itself. -/
theorem encodeChar_plain (c : Char) (h : plainJsonChar c = true) :
    encodeChar false c = [c] := by
  obtain ⟨h1, h2, h3, h4, h5⟩ := plainJsonChar_facts c h
  unfold encodeChar
  rw [if_neg h1, if_neg h2, if_neg (by simp)]
  rw [if_neg (show ¬(c = '\n') from by intro he; subst he; simp at h3)]
  rw [if_neg (show ¬(c = '\r') from by intro he; subst he; simp at h3)]
  rw [if_neg (show ¬(c = '\t') from by intro he; subst he; simp at h3)]
  rw [if_neg (show ¬(c.toNat < 32) from by omega)]
  rw [if_neg (show ¬((decide (c.toNat = 8232) || decide (c.toNat = 8233)) = true) from by
    simp [h4, h5])]

/-- With HTML escaping off, a plain string is encoded verbatim between
quotes — in particular `<` and `&` appear unescaped. -/
theorem encodeStringL_plain (s : String) (h : ∀ ch ∈ s.toList, plainJsonChar ch = true) :
    encodeStringL false s = '"' :: (s.toList ++ ['"']) := by
  unfold encodeStringL
  have : ∀ l : List Char, (∀ ch ∈ l, plainJsonChar ch = true) →
      (l.map (encodeChar false)).flatten = l := by
    intro l
    induction l with
    | nil => intro _; rfl
    | cons c rest ih =>
      intro hl
      simp only [List.map_cons, List.flatten_cons,
        encodeChar_plain c (hl c (List.mem_cons_self _ _)),
        ih (fun ch hch => hl ch (List.mem_cons_of_mem _ hch))]
      rfl
  rw [this s.toList h]
  simp

/-- `skipWs` keeps a non-whitespace head. -/
theorem skipWs_cons_of (c : Char) (l : List Char)
    (h : (c == ' ' || c == '\t' || c == '\n' || c == '\r') = false) :
    skipWs (c :: l) = c :: l := by
  simp only [skipWs, List.dropWhile_cons, h]
  rfl

/-- String-literal round trip: parsing the plain characters up to the
closing quote returns them with the remainder. -/
theorem parseStrChars_plain (l : List Char) (rest : List Char)
    (h : ∀ ch ∈ l, plainJsonChar ch = true) :
    parseStrChars (l ++ '"' :: rest) = some (l, rest) := by
  induction l with
  | nil =>
    show parseStrChars ('"' :: rest) = some ([], rest)
    unfold parseStrChars
    rw [if_pos rfl]
  | cons c cl ih =>
    obtain ⟨h1, h2, h3, _, _⟩ := plainJsonChar_facts c (h c (List.mem_cons_self _ _))
    show parseStrChars (c :: (cl ++ '"' :: rest)) = some (c :: cl, rest)
    unfold parseStrChars
    rw [if_neg h1, if_neg h2, if_neg (show ¬(c.toNat < 32) from by omega)]
    rw [ih (fun ch hch => h ch (List.mem_cons_of_mem _ hch))]
    rfl

/-- Value round trip for an encoded plain string literal. -/
theorem parseVal_str (fuel : Nat) (val : String) (tail : List Char)
    (h : ∀ ch ∈ val.toList, plainJsonChar ch = true) :
    parseVal (fuel + 1) ('"' :: (val.toList ++ '"' :: tail)) = some (Json.str val, tail) := by
  show parseVal (Nat.succ fuel) _ = _
  unfold parseVal
  rw [skipWs_cons_of '"' _ (by decide)]
  dsimp only
  rw [if_pos rfl]
  rw [parseStrChars_plain val.toList tail h]
  rfl

/-- Object-member round trip: parsing the encoded members of a flat
string object up to the closing brace returns exactly those members. -/
theorem parseObjFields_enc (fields : List (String × String)) :
    ∀ fuel rest first,
      (∀ p ∈ fields, (∀ ch ∈ p.1.toList, plainJsonChar ch = true)
        ∧ (∀ ch ∈ p.2.toList, plainJsonChar ch = true)) →
      fields.length + 1 ≤ fuel →
      (fields = [] → first = true) →
      parseObjFields fuel
          (jsonEncodeFields false (fields.map (fun p => (p.1, Json.str p.2)))
            ++ rbrace :: rest) first
        = some (fields.map (fun p => (p.1, Json.str p.2)), rest) := by
  induction fields with
  | nil =>
    intro fuel rest first _hplain hfuel hfirst
    obtain ⟨f, rfl⟩ : ∃ f, fuel = f + 1 := ⟨fuel - 1, by omega⟩
    rw [hfirst rfl]
    show parseObjFields (Nat.succ f) ([] ++ rbrace :: rest) true = some ([], rest)
    unfold parseObjFields
    rw [show ([] : List Char) ++ rbrace :: rest = rbrace :: rest from rfl]
    rw [skipWs_cons_of rbrace _ (by decide)]
    dsimp only
    rw [if_pos (by simp)]
  | cons p ps ih =>
    intro fuel rest first hplain hfuel _hfirst
    obtain ⟨k, val⟩ := p
    obtain ⟨f, rfl⟩ : ∃ f, fuel = f + 1 := ⟨fuel - 1, by omega⟩
    have hlen : ps.length + 1 ≤ f := by
      simpa using hfuel
    obtain ⟨f2, rfl⟩ : ∃ f2, f = f2 + 1 := ⟨f - 1, by omega⟩
    have hk : ∀ ch ∈ k.toList, plainJsonChar ch = true :=
      (hplain (k, val) (List.mem_cons_self _ _)).1
    have hv : ∀ ch ∈ val.toList, plainJsonChar ch = true :=
      (hplain (k, val) (List.mem_cons_self _ _)).2
    rcases ps with _ | ⟨q, qs⟩
    · show parseObjFields (Nat.succ (f2 + 1))
        (jsonEncodeFields false [(k, Json.str val)] ++ rbrace :: rest) first
        = some ([(k, Json.str val)], rest)
      unfold jsonEncodeFields
      rw [encodeStringL_plain k hk]
      rw [show jsonEncodeL false (Json.str val) = encodeStringL false val from rfl,
        encodeStringL_plain val hv]
      unfold parseObjFields
      rw [show ('"' :: (k.toList ++ ['"']) ++ ':' :: ('"' :: (val.toList ++ ['"'])))
            ++ rbrace :: rest
          = '"' :: (k.toList ++ '"' :: ':' :: '"' :: (val.toList ++ '"' :: rbrace :: rest))
          from by simp]
      rw [skipWs_cons_of '"' _ (by decide)]
      try dsimp only
      rw [if_neg (show ¬((decide ('"' = rbrace) && first) = true) from by
        rw [show (decide ('"' = rbrace)) = false from by decide]
        simp), if_pos rfl]
      rw [parseStrChars_plain k.toList _ hk]
      try dsimp only
      rw [skipWs_cons_of ':' _ (by decide)]
      try dsimp only
      rw [if_pos (show (':' : Char) = ':' from rfl)]
      rw [parseVal_str f2 val (rbrace :: rest) hv]
      try dsimp only
      rw [skipWs_cons_of rbrace _ (by decide)]
      try dsimp only
      rw [if_neg (show ¬(rbrace = ',') from by decide), if_pos rfl]
      rfl
    · show parseObjFields (Nat.succ (f2 + 1))
        (jsonEncodeFields false ((k, Json.str val) :: (q.1, Json.str q.2)
            :: qs.map (fun p => (p.1, Json.str p.2))) ++ rbrace :: rest) first
        = some ((k, Json.str val) :: (q.1, Json.str q.2)
            :: qs.map (fun p => (p.1, Json.str p.2)), rest)
      rw [show jsonEncodeFields false ((k, Json.str val) :: (q.1, Json.str q.2)
            :: qs.map (fun p => (p.1, Json.str p.2)))
          = encodeStringL false k ++ ':' :: jsonEncodeL false (Json.str val)
            ++ ',' :: jsonEncodeFields false ((q.1, Json.str q.2)
              :: qs.map (fun p => (p.1, Json.str p.2))) from rfl]
      rw [encodeStringL_plain k hk]
      rw [show jsonEncodeL false (Json.str val) = encodeStringL false val from rfl,
        encodeStringL_plain val hv]
      unfold parseObjFields
      rw [show ('"' :: (k.toList ++ ['"']) ++ ':' :: ('"' :: (val.toList ++ ['"']))
            ++ ',' :: jsonEncodeFields false ((q.1, Json.str q.2)
              :: qs.map (fun p => (p.1, Json.str p.2)))) ++ rbrace :: rest
          = '"' :: (k.toList ++ '"' :: ':' :: '"' :: (val.toList ++ '"' :: ','
              :: (jsonEncodeFields false ((q.1, Json.str q.2)
                :: qs.map (fun p => (p.1, Json.str p.2))) ++ rbrace :: rest)))
          from by simp]
      rw [skipWs_cons_of '"' _ (by decide)]
      try dsimp only
      rw [if_neg (show ¬((decide ('"' = rbrace) && first) = true) from by
        rw [show (decide ('"' = rbrace)) = false from by decide]
        simp), if_pos rfl]
      rw [parseStrChars_plain k.toList _ hk]
      try dsimp only
      rw [skipWs_cons_of ':' _ (by decide)]
      try dsimp only
      rw [if_pos (show (':' : Char) = ':' from rfl)]
      rw [parseVal_str f2 val _ hv]
      try dsimp only
      rw [skipWs_cons_of ',' _ (by decide)]
      try dsimp only
      rw [if_pos (show (',' : Char) = ',' from rfl)]
      rw [show (q.1, Json.str q.2) :: qs.map (fun p => (p.1, Json.str p.2))
          = (q :: qs).map (fun p => (p.1, Json.str p.2)) from rfl]
      rw [ih (f2 + 1) rest false
        (fun r hr => hplain r (List.mem_cons_of_mem _ hr)) hlen
        (fun h => List.noConfusion h)]
      rfl

/-- The encoding of a member list is at least as long as the list. -/
theorem jsonEncodeFields_length (fields : List (String × String)) :
    fields.length
      ≤ (jsonEncodeFields false (fields.map (fun p => (p.1, Json.str p.2)))).length := by
  induction fields with
  | nil => simp [jsonEncodeFields]
  | cons p ps ih =>
    rcases ps with _ | ⟨q, qs⟩
    · show 1 ≤ (jsonEncodeFields false [(p.1, Json.str p.2)]).length
      rw [show jsonEncodeFields false [(p.1, Json.str p.2)]
          = encodeStringL false p.1 ++ ':' :: jsonEncodeL false (Json.str p.2) from rfl]
      simp only [List.length_append, List.length_cons]
      omega
    · show (p :: q :: qs).length
        ≤ (jsonEncodeFields false ((p.1, Json.str p.2) :: (q.1, Json.str q.2)
            :: qs.map (fun r => (r.1, Json.str r.2)))).length
      rw [show jsonEncodeFields false ((p.1, Json.str p.2) :: (q.1, Json.str q.2)
            :: qs.map (fun r => (r.1, Json.str r.2)))
          = encodeStringL false p.1 ++ ':' :: jsonEncodeL false (Json.str p.2)
            ++ ',' :: jsonEncodeFields false ((q.1, Json.str q.2)
              :: qs.map (fun r => (r.1, Json.str r.2))) from rfl]
      have ih2 : (q :: qs).length
          ≤ (jsonEncodeFields false ((q.1, Json.str q.2)
              :: qs.map (fun r => (r.1, Json.str r.2)))).length := ih
      simp only [List.length_append, List.length_cons] at *
      omega

/-- Round trip through the Go encoder and decoder for a flat string
object with plain characters and HTML escaping off. -/
theorem jsonParse_flatObj (fields : List (String × String))
    (h : ∀ p ∈ fields, (∀ ch ∈ p.1.toList, plainJsonChar ch = true)
      ∧ (∀ ch ∈ p.2.toList, plainJsonChar ch = true)) :
    jsonParse (goJsonEncode false (flatObj fields)) = some (flatObj fields) := by
  unfold jsonParse goJsonEncode flatObj
  rw [show jsonEncodeL false (Json.obj (fields.map (fun p => (p.1, Json.str p.2))))
      = lbrace :: jsonEncodeFields false (fields.map (fun p => (p.1, Json.str p.2)))
        ++ [rbrace] from rfl]
  set inner := jsonEncodeFields false (fields.map (fun p => (p.1, Json.str p.2))) with hinner
  have hlist : (String.mk ((lbrace :: inner ++ [rbrace]) ++ ['\n'])).toList
      = lbrace :: (inner ++ rbrace :: ['\n']) := by simp
  rw [hlist]
  have hlen : (String.mk ((lbrace :: inner ++ [rbrace]) ++ ['\n'])).length
      = inner.length + 3 := by
    show ((lbrace :: inner ++ [rbrace]) ++ ['\n']).length = inner.length + 3
    simp
  rw [hlen]
  have hfuel : 2 * (inner.length + 3) + 2 = (2 * (inner.length + 3) + 1) + 1 := rfl
  rw [hfuel]
  show (match parseVal (Nat.succ (2 * (inner.length + 3) + 1))
      (lbrace :: (inner ++ rbrace :: ['\n'])) with
    | some (v, rest) => if skipWs rest = [] then some v else none
    | none => none) = _
  unfold parseVal
  rw [skipWs_cons_of lbrace _ (by decide)]
  dsimp only
  rw [if_neg (show ¬(lbrace = '"') from by decide), if_pos rfl]
  rw [parseObjFields_enc fields (2 * (inner.length + 3) + 1) ['\n'] true h
    (by
      have hje := jsonEncodeFields_length fields
      rw [← hinner] at hje
      omega)
    (fun _ => rfl)]
  simp [skipWs]

/-- C7: a request built with a non-null body (here the library's flat
string-object payload shape, over characters needing no JSON escapes)
carries `Content-Type: application/json`, and its body JSON-decodes back
to the original structure; HTML escaping is disabled, so every field
value is encoded verbatim between its quotes — `<` and `&` are carried
through unescaped, while the encoder's default mode would have written
`<` as `\u003c`. -/
theorem c7_json_body_roundtrip (c : Client) (method urlStr : String)
    (fields : List (String × String)) (req : GoRequest)
    (hplain : ∀ p ∈ fields, (∀ ch ∈ p.1.toList, plainJsonChar ch = true)
      ∧ (∀ ch ∈ p.2.toList, plainJsonChar ch = true))
    (h : NewRequest c method urlStr (some (flatObj fields)) = some req) :
    headerGet req.headers "Content-Type" = "application/json"
    ∧ (∀ b, req.body = some b → jsonParse b = some (flatObj fields))
    ∧ (∀ p ∈ fields, encodeStringL false p.2 = '"' :: (p.2.toList ++ ['"']))
    ∧ encodeChar false '<' = ['<'] ∧ encodeChar false '&' = ['&']
    ∧ encodeChar true '<' = ['\\', 'u', '0', '0', '3', 'c'] := by
  unfold NewRequest at h
  rcases hparse : urlParse urlStr with _ | ref
  · rw [hparse] at h
    exact absurd h (by simp)
  · rw [hparse] at h
    dsimp only at h
    injection h with h2
    refine ⟨?_, ?_, ?_, rfl, rfl, rfl⟩
    · rw [← h2]
      show headerGet ([("Content-Type", "application/json")] ++
        (if c.apiKey ≠ "" then [("Authorization", "Bearer " ++ c.apiKey)] else []) ++
        [("User-Agent", c.userAgent)]) "Content-Type" = "application/json"
      rfl
    · intro b hb
      rw [← h2] at hb
      have hb2 : some (goJsonEncode false (flatObj fields)) = some b := hb
      injection hb2 with hb3
      rw [← hb3]
      exact jsonParse_flatObj fields hplain
    · intro p hp
      exact encodeStringL_plain p.2 (hplain p hp).2

/-- Witness for C7 at a body whose field value contains `<` and `&`. -/
theorem c7_json_body_roundtrip_witness :
    jsonParse "\x7b\"name\":\"a<b&c\"\x7d\n" = some (flatObj [("name", "a<b&c")])
    ∧ headerGet [("Content-Type", "application/json"), ("User-Agent", UserAgent)]
        "Content-Type" = "application/json"
    ∧ encodeStringL false "a<b&c" = '"' :: ("a<b&c".toList ++ ['"']) := by
  have h := c7_json_body_roundtrip (NewClient []) "POST" "applications"
    [("name", "a<b&c")]
    ⟨"POST", ⟨"https", "", "api.sevalla.com", true, "/applications", "", ""⟩,
      [("Content-Type", "application/json"), ("User-Agent", UserAgent)],
      some "\x7b\"name\":\"a<b&c\"\x7d\n"⟩
    (by decide) rfl
  exact ⟨h.2.1 "\x7b\"name\":\"a<b&c\"\x7d\n" rfl,
    h.1,
    h.2.2.1 ("name", "a<b&c") (List.mem_cons_self _ _)⟩

end Sevalla
